import Mathlib

/-!
Shallow embedding of the context-persistence knowledge graph and hybrid
search engine (`knowledge_graph.py`, `hybrid_search.py`,
`entity_extractor.py`).  Python floats (scores) are modelled as rationals,
datetimes as integers, Python dictionaries as insertion-ordered association
lists.  Calls into external libraries — the SQL store, the networkx
shortest-path routines, the Qdrant client — are modelled by their documented
behaviour; everything else is translated statement by statement from the
source.
-/

/-- Keep the first occurrence of every element, in order: the key order of a
Python dict populated left to right. -/
def firstDedup {α : Type} [DecidableEq α] : List α → List α
  | [] => []
  | a :: rest => a :: firstDedup (rest.filter (fun x => decide (x ≠ a)))
termination_by l => l.length
decreasing_by
  simp only [List.length_cons]
  exact Nat.lt_succ_of_le (List.length_filter_le _ _)


/-- Insert `a` into the sorted list `l`, after every element `b` with
`le b a`: the insertion step of a stable sort. -/
def insertLe {α : Type} (le : α → α → Bool) (a : α) : List α → List α
  | [] => [a]
  | b :: l => if le b a then b :: insertLe le a l else a :: b :: l

/-- Python's stable `list.sort(key=...)`: insert elements left to right,
each after its ties, so equal elements keep their original order. -/
def stableSort {α : Type} (le : α → α → Bool) (l : List α) : List α :=
  l.foldl (fun acc a => insertLe le a acc) []

theorem insertLe_perm {α : Type} (le : α → α → Bool) (a : α) :
    ∀ l : List α, (insertLe le a l).Perm (a :: l) := by
  intro l
  induction l with
  | nil => exact List.Perm.refl _
  | cons b l ih =>
    simp only [insertLe]
    by_cases h : le b a
    · rw [if_pos h]
      exact (List.Perm.cons b ih).trans (List.Perm.swap a b l)
    · rw [if_neg h]

theorem foldl_insertLe_perm {α : Type} (le : α → α → Bool) :
    ∀ (l acc : List α),
      (l.foldl (fun acc x => insertLe le x acc) acc).Perm (acc ++ l) := by
  intro l
  induction l with
  | nil => intro acc; simp
  | cons a l ih =>
    intro acc
    simp only [List.foldl_cons]
    refine (ih (insertLe le a acc)).trans ?_
    refine (List.Perm.append_right l (insertLe_perm le a acc)).trans ?_
    exact List.perm_middle.symm

theorem stableSort_perm {α : Type} (le : α → α → Bool) (l : List α) :
    (stableSort le l).Perm l := by
  simpa using foldl_insertLe_perm le l []

theorem mem_insertLe {α : Type} (le : α → α → Bool) (a x : α) (l : List α) :
    x ∈ insertLe le a l ↔ x = a ∨ x ∈ l := by
  rw [(insertLe_perm le a l).mem_iff]
  simp

theorem insertLe_pairwise {α : Type} (le : α → α → Bool)
    (htrans : ∀ a b c, le a b = true → le b c = true → le a c = true)
    (htotal : ∀ a b, le a b = true ∨ le b a = true) (a : α) :
    ∀ l : List α, l.Pairwise (fun x y => le x y = true) →
      (insertLe le a l).Pairwise (fun x y => le x y = true) := by
  intro l
  induction l with
  | nil => intro _; simp [insertLe]
  | cons b l ih =>
    intro hpw
    rcases List.pairwise_cons.1 hpw with ⟨hb, hl⟩
    simp only [insertLe]
    by_cases h : le b a
    · rw [if_pos h]
      refine List.pairwise_cons.2 ⟨?_, ih hl⟩
      intro x hx
      rcases (mem_insertLe le a x l).1 hx with rfl | hx
      · exact h
      · exact hb x hx
    · rw [if_neg h]
      have hab : le a b = true := by
        rcases htotal a b with hab | hba
        · exact hab
        · exact absurd hba h
      refine List.pairwise_cons.2 ⟨?_, hpw⟩
      intro x hx
      rcases List.mem_cons.1 hx with rfl | hx
      · exact hab
      · exact htrans a b x hab (hb x hx)

theorem stableSort_pairwise {α : Type} (le : α → α → Bool)
    (htrans : ∀ a b c, le a b = true → le b c = true → le a c = true)
    (htotal : ∀ a b, le a b = true ∨ le b a = true) (l : List α) :
    (stableSort le l).Pairwise (fun x y => le x y = true) := by
  unfold stableSort
  suffices h : ∀ (l acc : List α), acc.Pairwise (fun x y => le x y = true) →
      (l.foldl (fun acc x => insertLe le x acc) acc).Pairwise
        (fun x y => le x y = true) from h l [] List.Pairwise.nil
  intro l
  induction l with
  | nil => intro acc hacc; simpa using hacc
  | cons a l ih =>
    intro acc hacc
    simp only [List.foldl_cons]
    exact ih _ (insertLe_pairwise le htrans htotal a acc hacc)


/-- Attributes copied onto a graph node by `build_graph`'s `add_node` call.
`description`, `meta_data` and the provenance ids are carried verbatim by the
code and never inspected by the operations verified here, so they are
elided from the snapshot. -/
structure NodeData where
  name : String
  entity_type : String
  confidence : ℚ
deriving DecidableEq, Repr

/-- Attributes copied onto an edge by `build_graph`'s `add_edge` call
(`properties` and provenance elided as above). -/
structure EdgeData where
  relationship_type : String
  confidence : ℚ
deriving DecidableEq, Repr

/-- One keyed edge of the `networkx.MultiDiGraph` (key = relationship id). -/
structure KEdge where
  src : String
  tgt : String
  key : String
  data : EdgeData
deriving DecidableEq, Repr

/-- The in-memory `networkx.MultiDiGraph`: insertion-ordered node list and
keyed multi-edge list. -/
structure KGraph where
  nodes : List (String × NodeData)
  edges : List KEdge
deriving DecidableEq, Repr

def KGraph.clear : KGraph := { nodes := [], edges := [] }

/-- All node ids of the graph.  `add_edge` implicitly adds missing endpoint
nodes, so `x in graph` is membership in this set, not only in the nodes
added by `add_node`. -/
def nodeIds (g : KGraph) : List String :=
  (g.nodes.map Prod.fst ++ g.edges.flatMap (fun e => [e.src, e.tgt])).dedup

/-- `graph.neighbors(x)` on a `MultiDiGraph`: the distinct *successor* nodes
of `x` (outgoing adjacency only). -/
def successors (g : KGraph) (x : String) : List String :=
  ((g.edges.filter (fun e => decide (e.src = x))).map KEdge.tgt).dedup

/-- `graph.predecessors(x)`: the distinct source nodes of edges into `x`. -/
def predecessors (g : KGraph) (x : String) : List String :=
  ((g.edges.filter (fun e => decide (e.tgt = x))).map KEdge.src).dedup

/-- The `relationship_types` filter for one traversal step `a -> b`: at least
one parallel edge `a -> b` has its type in the list.  `None` and the empty
list are Python-falsy, so both disable the filter (`if relationship_types:`).
-/
def relFilterOk (g : KGraph) (rts : Option (List String)) (a b : String) : Bool :=
  match rts with
  | none => true
  | some [] => true
  | some ts =>
      (g.edges.filter (fun e => decide (e.src = a) && decide (e.tgt = b))).any
        (fun e => ts.contains e.data.relationship_type)

/-- One BFS level of `get_neighbors`.  The Python loop adds a neighbor to
`next_level` and `visited` together, so within a level the growing `visited`
set only prevents duplicate insertion (captured by `dedup`); a neighbor ends
up in the level iff some node of `current` has it as an unvisited successor
passing the relationship-type filter. -/
def nextLevel (g : KGraph) (rts : Option (List String))
    (current visited : List String) : List String :=
  (current.flatMap (fun node =>
      (successors g node).filter
        (fun nb => !visited.contains nb && relFilterOk g rts node nb))).dedup

/-- The successive BFS levels of `get_neighbors` (`for level in range(1,
depth + 1)`), including empty ones. -/
def bfsLevels (g : KGraph) (rts : Option (List String)) :
    Nat → List String → List String → List (List String)
  | 0, _, _ => []
  | d + 1, current, visited =>
      let nxt := nextLevel g rts current visited
      nxt :: bfsLevels g rts d nxt (visited ++ nxt)

/-- Attach the `depth_{level}` keys: level counter advances every iteration,
but a bucket is emitted only when nonempty (`if next_level:`). -/
def indexLevels : Nat → List (List String) → List (Nat × List String)
  | _, [] => []
  | i, l :: rest =>
      if l.isEmpty then indexLevels (i + 1) rest
      else (i, l) :: indexLevels (i + 1) rest

/-- `get_neighbors(entity_id, depth, relationship_types)`: buckets of node
ids by depth level (the code additionally copies each node's attribute dict
into the bucket records; the ids determine those verbatim copies). -/
def getNeighbors (g : KGraph) (entityId : String) (depth : Nat)
    (rts : Option (List String)) : List (Nat × List String) :=
  if entityId ∈ nodeIds g then
    indexLevels 1 (bfsLevels g rts depth [entityId] [entityId])
  else []

theorem mem_nextLevel {g : KGraph} {rts : Option (List String)}
    {current visited : List String} {x : String} :
    x ∈ nextLevel g rts current visited ↔
      ∃ node ∈ current, x ∈ successors g node ∧ x ∉ visited ∧
        relFilterOk g rts node x = true := by
  simp only [nextLevel, List.mem_dedup, List.mem_flatMap, List.mem_filter,
    Bool.and_eq_true, Bool.not_eq_true', List.elem_eq_mem,
    decide_eq_false_iff_not]

theorem bfsLevels_not_mem_visited (g : KGraph) (rts : Option (List String)) :
    ∀ (d : Nat) (current visited : List String),
      ∀ L ∈ bfsLevels g rts d current visited, ∀ x ∈ L, x ∉ visited := by
  intro d
  induction d with
  | zero => intro current visited L hL; simp [bfsLevels] at hL
  | succ d ih =>
    intro current visited L hL x hx
    simp only [bfsLevels, List.mem_cons] at hL
    rcases hL with rfl | hL
    · rcases mem_nextLevel.1 hx with ⟨node, _, _, hnv, _⟩
      exact hnv
    · intro hxv
      exact (ih _ _ L hL x hx) (List.mem_append_left _ hxv)

theorem bfsLevels_pairwise_disjoint (g : KGraph) (rts : Option (List String)) :
    ∀ (d : Nat) (current visited : List String),
      (bfsLevels g rts d current visited).Pairwise
        (fun L1 L2 => ∀ x ∈ L2, x ∉ L1) := by
  intro d
  induction d with
  | zero => intro current visited; simp [bfsLevels]
  | succ d ih =>
    intro current visited
    simp only [bfsLevels]
    refine List.Pairwise.cons ?_ (ih _ _)
    intro L hL x hxL hxnxt
    exact bfsLevels_not_mem_visited g rts d _ _ L hL x hxL
      (List.mem_append_right _ hxnxt)

theorem mem_indexLevels :
    ∀ (i : Nat) (ls : List (List String)) (p : Nat × List String),
      p ∈ indexLevels i ls → p.2 ∈ ls ∧ i ≤ p.1 := by
  intro i ls
  induction ls generalizing i with
  | nil => simp [indexLevels]
  | cons hd tl ih =>
    intro p hp
    simp only [indexLevels] at hp
    by_cases h : hd.isEmpty
    · rw [if_pos h] at hp
      obtain ⟨h1, h2⟩ := ih (i + 1) p hp
      exact ⟨List.mem_cons_of_mem _ h1, Nat.le_of_succ_le h2⟩
    · rw [if_neg h] at hp
      rcases List.mem_cons.1 hp with rfl | hp
      · exact ⟨List.mem_cons_self _ _, Nat.le_refl _⟩
      · obtain ⟨h1, h2⟩ := ih (i + 1) p hp
        exact ⟨List.mem_cons_of_mem _ h1, Nat.le_of_succ_le h2⟩

theorem indexLevels_pairwise {R : List String → List String → Prop} :
    ∀ (i : Nat) (ls : List (List String)), ls.Pairwise R →
      (indexLevels i ls).Pairwise (fun p q => R p.2 q.2) := by
  intro i ls
  induction ls generalizing i with
  | nil => intro _; simp [indexLevels]
  | cons hd tl ih =>
    intro hpw
    rcases List.pairwise_cons.1 hpw with ⟨hhd, htl⟩
    simp only [indexLevels]
    by_cases h : hd.isEmpty
    · rw [if_pos h]; exact ih (i + 1) htl
    · rw [if_neg h]
      refine List.Pairwise.cons ?_ (ih (i + 1) htl)
      intro q hq
      exact hhd q.2 (mem_indexLevels (i + 1) tl q hq).1

theorem indexLevels_fst_min :
    ∀ (i : Nat) (hd : List String) (tl : List (List String))
      (p : Nat × List String),
      p ∈ indexLevels i (hd :: tl) → p.1 = i → p.2 = hd := by
  intro i hd tl p hp hfst
  simp only [indexLevels] at hp
  by_cases h : hd.isEmpty
  · rw [if_pos h] at hp
    have := (mem_indexLevels (i + 1) tl p hp).2
    omega
  · rw [if_neg h] at hp
    rcases List.mem_cons.1 hp with heq | hp
    · rw [heq]
    · have := (mem_indexLevels (i + 1) tl p hp).2
      omega

theorem indexLevels_head_mem (i : Nat) (hd : List String)
    (tl : List (List String)) (h : ¬hd.isEmpty) :
    (i, hd) ∈ indexLevels i (hd :: tl) := by
  simp only [indexLevels, if_neg h]
  exact List.mem_cons_self _ _

/-- Two-node graph whose only edge runs INTO the queried node: `B -> A`. -/
def incomingOnlyGraph : KGraph :=
  { nodes := [("A", ⟨"A", "test", 1⟩), ("B", ⟨"B", "test", 1⟩)]
    edges := [⟨"B", "A", "e1", ⟨"knows", 1⟩⟩] }

/-- C2, counterexample: `A` is in the graph and is connected to `B` only by
the incoming edge `B -> A`, yet `get_neighbors("A", depth=1)` returns no
buckets at all — `B` does not appear in `depth_1`, because the code iterates
`graph.neighbors`, i.e. successors only, not undirected adjacency. -/
theorem claim_C2_counterexample :
    "A" ∈ nodeIds incomingOnlyGraph ∧
    "A" ∈ successors incomingOnlyGraph "B" ∧
    getNeighbors incomingOnlyGraph "A" 1 none = [] := by
  decide

/-- C2, amended: `get_neighbors` expands breadth-first along *outgoing*
(directed) adjacency only; it never revisits a node already seen at an
earlier or equal level (buckets are pairwise disjoint and never contain the
origin), and the `depth_1` bucket holds exactly the origin's
filter-passing successors other than the origin — so a node connected to
the origin only by an incoming edge does not appear. -/
theorem claim_C2_amended (g : KGraph) (entityId : String) (depth : Nat)
    (rts : Option (List String)) :
    (∀ p ∈ getNeighbors g entityId depth rts, entityId ∉ p.2) ∧
    (getNeighbors g entityId depth rts).Pairwise
      (fun p q => ∀ x ∈ q.2, x ∉ p.2) ∧
    (∀ d, depth = d + 1 → entityId ∈ nodeIds g → ∀ x,
      ((∃ p ∈ getNeighbors g entityId depth rts, p.1 = 1 ∧ x ∈ p.2) ↔
        (x ∈ successors g entityId ∧ relFilterOk g rts entityId x = true ∧
          x ≠ entityId))) := by
  refine ⟨?_, ?_, ?_⟩
  · intro p hp hmem
    unfold getNeighbors at hp
    by_cases hg : entityId ∈ nodeIds g
    · rw [if_pos hg] at hp
      have h2 := (mem_indexLevels 1 _ p hp).1
      exact bfsLevels_not_mem_visited g rts depth _ _ p.2 h2 entityId hmem
        (List.mem_singleton.2 rfl)
    · rw [if_neg hg] at hp
      simp at hp
  · unfold getNeighbors
    by_cases hg : entityId ∈ nodeIds g
    · rw [if_pos hg]
      exact indexLevels_pairwise 1 _ (bfsLevels_pairwise_disjoint g rts depth _ _)
    · rw [if_neg hg]; simp
  · rintro d rfl hg x
    unfold getNeighbors
    rw [if_pos hg]
    have hlev : bfsLevels g rts (d + 1) [entityId] [entityId] =
        nextLevel g rts [entityId] [entityId] ::
          bfsLevels g rts d (nextLevel g rts [entityId] [entityId])
            ([entityId] ++ nextLevel g rts [entityId] [entityId]) := rfl
    constructor
    · rintro ⟨p, hp, hfst, hx⟩
      rw [hlev] at hp
      have hhd := indexLevels_fst_min 1 _ _ p hp hfst
      rw [hhd] at hx
      rcases mem_nextLevel.1 hx with ⟨node, hnode, hsucc, hnv, hfil⟩
      rcases List.mem_singleton.1 hnode with rfl
      refine ⟨hsucc, hfil, ?_⟩
      intro hxe
      exact hnv (by rw [hxe]; exact List.mem_singleton.2 rfl)
    · rintro ⟨hsucc, hfil, hne⟩
      have hx : x ∈ nextLevel g rts [entityId] [entityId] :=
        mem_nextLevel.2 ⟨entityId, List.mem_singleton.2 rfl, hsucc,
          by simp [hne], hfil⟩
      have hnonempty : ¬(nextLevel g rts [entityId] [entityId]).isEmpty := by
        intro h
        rw [List.isEmpty_iff.1 h] at hx
        exact List.not_mem_nil x hx
      refine ⟨(1, nextLevel g rts [entityId] [entityId]), ?_, rfl, hx⟩
      rw [hlev]
      exact indexLevels_head_mem 1 _ _ hnonempty

/-- C2 amended, witness: a concrete run of the depth-1 characterisation on a
two-node graph with a single outgoing edge `A -> B`. -/
theorem claim_C2_amended_witness :
    "B" ∈ successors (KGraph.mk [("A", ⟨"A", "t", 1⟩), ("B", ⟨"B", "t", 1⟩)]
        [⟨"A", "B", "e1", ⟨"knows", 1⟩⟩]) "A" ∧
    (∃ p ∈ getNeighbors (KGraph.mk [("A", ⟨"A", "t", 1⟩), ("B", ⟨"B", "t", 1⟩)]
        [⟨"A", "B", "e1", ⟨"knows", 1⟩⟩]) "A" 1 none, p.1 = 1 ∧ "B" ∈ p.2) := by
  refine ⟨by decide, ?_⟩
  exact ((claim_C2_amended (KGraph.mk [("A", ⟨"A", "t", 1⟩), ("B", ⟨"B", "t", 1⟩)]
      [⟨"A", "B", "e1", ⟨"knows", 1⟩⟩]) "A" 1 none).2.2 0 rfl (by decide)
      "B").2 ⟨by decide, by decide, by decide⟩

instance {e a : Type} [DecidableEq e] [DecidableEq a] :
    DecidableEq (Except e a) := fun x y =>
  match x, y with
  | Except.error u, Except.error v =>
      if h : u = v then isTrue (by rw [h])
      else isFalse (by intro hc; cases hc; exact h rfl)
  | Except.error _, Except.ok _ => isFalse (by intro hc; cases hc)
  | Except.ok _, Except.error _ => isFalse (by intro hc; cases hc)
  | Except.ok u, Except.ok v =>
      if h : u = v then isTrue (by rw [h])
      else isFalse (by intro hc; cases hc; exact h rfl)

/-- An `Entity` row of the Temporal Store (`models_enhanced.Entity`);
bi-temporal instants are integers, `valid_until = none` means currently
valid.  `event_time`, `ingestion_time`, `description`, `meta_data` and
provenance are carried verbatim by `build_graph` and elided here. -/
structure Entity where
  id : String
  name : String
  entity_type : String
  confidence : ℚ
  valid_from : Int
  valid_until : Option Int
deriving DecidableEq, Repr

/-- A `Relationship` row: a typed directed edge with the same bi-temporal
fields. -/
structure Relationship where
  id : String
  source_entity_id : String
  target_entity_id : String
  relationship_type : String
  confidence : ℚ
  valid_from : Int
  valid_until : Option Int
deriving DecidableEq, Repr

/-- The temporal predicate of both `build_graph` queries:
`valid_from <= as_of AND (valid_until IS NULL OR valid_until > as_of)`. -/
def validAt (validFrom : Int) (validUntil : Option Int) (asOf : Int) : Bool :=
  decide (validFrom ≤ asOf) &&
    (match validUntil with
     | none => true
     | some u => decide (asOf < u))

/-- The Temporal Store as seen by `build_graph`: each query either returns
its rows or raises (`Except.error`). -/
structure TemporalStore where
  entitiesQuery : Int → Except String (List Entity)
  relationshipsQuery : Int → Except String (List Relationship)

/-- A store backed by plain entity/relationship tables: queries never raise
and filter by the temporal predicate (the SQL `WHERE` clause). -/
def storeOfTables (ents : List Entity) (rels : List Relationship) :
    TemporalStore :=
  { entitiesQuery := fun asOf =>
      Except.ok (ents.filter (fun e => validAt e.valid_from e.valid_until asOf))
    relationshipsQuery := fun asOf =>
      Except.ok (rels.filter (fun r => validAt r.valid_from r.valid_until asOf)) }

/-- The mutable state of the `KnowledgeGraph` object: the graph and
`_last_refresh`. -/
structure KGState where
  graph : KGraph
  lastRefresh : Option Int
deriving DecidableEq, Repr

def nodeOfEntity (e : Entity) : String × NodeData :=
  (e.id, { name := e.name, entity_type := e.entity_type,
           confidence := e.confidence })

def edgeOfRelationship (r : Relationship) : KEdge :=
  { src := r.source_entity_id, tgt := r.target_entity_id, key := r.id,
    data := { relationship_type := r.relationship_type,
              confidence := r.confidence } }

/-- `build_graph(session, as_of)`, step by step: clear the graph FIRST, then
run the entity query, add nodes, run the relationship query, add edges, and
only then stamp `_last_refresh = now` and return
`self.graph.number_of_nodes()` — which counts every node of the graph,
including endpoints implicitly added by `add_edge` for relationships whose
entities were not selected (`nodeIds`), not only the `add_node` rows.  A
raising query propagates (`Except.error`) leaving the state as mutated so
far. -/
def buildGraphRun (st : KGState) (store : TemporalStore) (asOf now : Int) :
    Except String Nat × KGState :=
  let cleared : KGState := { st with graph := KGraph.clear }
  match store.entitiesQuery asOf with
  | Except.error msg => (Except.error msg, cleared)
  | Except.ok entities =>
    let withNodes : KGState :=
      { cleared with graph := { nodes := entities.map nodeOfEntity, edges := [] } }
    match store.relationshipsQuery asOf with
    | Except.error msg => (Except.error msg, withNodes)
    | Except.ok rels =>
      let g : KGraph := { withNodes.graph with edges := rels.map edgeOfRelationship }
      (Except.ok (nodeIds g).length, { graph := g, lastRefresh := some now })

/-- A store whose entity query always raises (Temporal Store unreachable). -/
def downStore : TemporalStore :=
  { entitiesQuery := fun _ => Except.error "store unreachable"
    relationshipsQuery := fun _ => Except.error "store unreachable" }

/-- C1, counterexample: starting from a usable one-node graph, a build whose
entity query raises surfaces the error, but the observable node set after
the failed build is empty — not the prior one-node set.  `build_graph`
clears the graph before querying, so a failed build does leave behind a
cleared graph. -/
theorem claim_C1_counterexample :
    (buildGraphRun ⟨⟨[("A", ⟨"A", "test", 1⟩)], []⟩, some 5⟩ downStore 0 9).1 =
      Except.error "store unreachable" ∧
    (buildGraphRun ⟨⟨[("A", ⟨"A", "test", 1⟩)], []⟩, some 5⟩ downStore 0 9).2.graph.nodes = [] ∧
    (⟨⟨[("A", ⟨"A", "test", 1⟩)], []⟩, some 5⟩ : KGState).graph.nodes ≠ [] := by
  refine ⟨rfl, rfl, by decide⟩

/-- C1, amended: a Temporal Store failure during `build` is surfaced to the
caller and `_last_refresh` is left unchanged, but the graph is NOT left in
its prior state: it is cleared before the queries run, so an entity-query
failure leaves an empty graph, and a relationship-query failure leaves a
graph holding the freshly loaded nodes and no edges. -/
theorem claim_C1_amended (st : KGState) (store : TemporalStore)
    (asOf now : Int) :
    (∀ msg, store.entitiesQuery asOf = Except.error msg →
      buildGraphRun st store asOf now =
        (Except.error msg, { graph := KGraph.clear, lastRefresh := st.lastRefresh })) ∧
    (∀ entities msg, store.entitiesQuery asOf = Except.ok entities →
      store.relationshipsQuery asOf = Except.error msg →
      buildGraphRun st store asOf now =
        (Except.error msg,
          { graph := { nodes := entities.map nodeOfEntity, edges := [] },
            lastRefresh := st.lastRefresh })) := by
  constructor
  · intro msg hq
    simp [buildGraphRun, hq]
  · intro entities msg hq hr
    simp [buildGraphRun, hq, hr]

/-- C1 amended, witness: concrete run of both failure branches. -/
theorem claim_C1_amended_witness :
    buildGraphRun ⟨⟨[("A", ⟨"A", "test", 1⟩)], []⟩, some 5⟩ downStore 0 9 =
      (Except.error "store unreachable",
        { graph := KGraph.clear, lastRefresh := some 5 }) := by
  exact (claim_C1_amended ⟨⟨[("A", ⟨"A", "test", 1⟩)], []⟩, some 5⟩
    downStore 0 9).1 "store unreachable" rfl

theorem mem_buildGraph_nodes_iff (ents : List Entity) (rels : List Relationship)
    (st : KGState) (asOf now : Int) (e : Entity)
    (hne : (ents.map Entity.id).Nodup) (he : e ∈ ents) :
    e.id ∈ ((buildGraphRun st (storeOfTables ents rels) asOf now).2.graph.nodes.map
        Prod.fst) ↔
      validAt e.valid_from e.valid_until asOf = true := by
  simp only [buildGraphRun, storeOfTables, List.map_map, List.mem_map,
    List.mem_filter, Function.comp, nodeOfEntity]
  constructor
  · rintro ⟨a, ⟨ha, hpa⟩, haid⟩
    have : a = e := List.inj_on_of_nodup_map hne ha he haid
    rw [this] at hpa
    exact hpa
  · intro hv
    exact ⟨e, ⟨he, hv⟩, rfl⟩

theorem mem_buildGraph_edges_iff (ents : List Entity) (rels : List Relationship)
    (st : KGState) (asOf now : Int) (r : Relationship)
    (hnr : (rels.map Relationship.id).Nodup) (hr : r ∈ rels) :
    r.id ∈ ((buildGraphRun st (storeOfTables ents rels) asOf now).2.graph.edges.map
        KEdge.key) ↔
      validAt r.valid_from r.valid_until asOf = true := by
  simp only [buildGraphRun, storeOfTables, List.map_map, List.mem_map,
    List.mem_filter, Function.comp, edgeOfRelationship]
  constructor
  · rintro ⟨a, ⟨ha, hpa⟩, haid⟩
    have : a = r := List.inj_on_of_nodup_map hnr ha hr haid
    rw [this] at hpa
    exact hpa
  · intro hv
    exact ⟨r, ⟨hr, hv⟩, rfl⟩

/-- Membership in the built graph (`x in graph`, the set counted by
`number_of_nodes()`): a node id is in the graph iff it is the id of a
temporally valid entity OR an endpoint of a temporally valid relationship —
`add_edge` implicitly adds missing endpoint nodes. -/
theorem mem_buildGraph_nodeIds_iff (ents : List Entity)
    (rels : List Relationship) (st : KGState) (asOf now : Int) (x : String) :
    x ∈ nodeIds (buildGraphRun st (storeOfTables ents rels) asOf now).2.graph ↔
      ((∃ e ∈ ents, validAt e.valid_from e.valid_until asOf = true ∧
          e.id = x) ∨
       (∃ r ∈ rels, validAt r.valid_from r.valid_until asOf = true ∧
          (r.source_entity_id = x ∨ r.target_entity_id = x))) := by
  have hg : (buildGraphRun st (storeOfTables ents rels) asOf now).2.graph =
      { nodes := (ents.filter
          (fun e => validAt e.valid_from e.valid_until asOf)).map nodeOfEntity,
        edges := (rels.filter
          (fun r => validAt r.valid_from r.valid_until asOf)).map
            edgeOfRelationship } := rfl
  rw [hg]
  unfold nodeIds
  rw [List.mem_dedup, List.mem_append]
  dsimp only
  constructor
  · rintro (h | h)
    · rw [List.map_map] at h
      rcases List.mem_map.1 h with ⟨e, he, rfl⟩
      rcases List.mem_filter.1 he with ⟨he1, he2⟩
      exact Or.inl ⟨e, he1, he2, rfl⟩
    · rcases List.mem_flatMap.1 h with ⟨ed, hed, hx⟩
      rcases List.mem_map.1 hed with ⟨r0, hr0, rfl⟩
      rcases List.mem_filter.1 hr0 with ⟨hr1, hr2⟩
      rcases List.mem_cons.1 hx with hx | hx
      · exact Or.inr ⟨r0, hr1, hr2, Or.inl hx.symm⟩
      · rcases List.mem_singleton.1 hx with hx
        exact Or.inr ⟨r0, hr1, hr2, Or.inr hx.symm⟩
  · rintro (⟨e, he, hv, rfl⟩ | ⟨r0, hr, hv, hx⟩)
    · refine Or.inl ?_
      rw [List.map_map]
      exact List.mem_map.2 ⟨e, List.mem_filter.2 ⟨he, hv⟩, rfl⟩
    · refine Or.inr (List.mem_flatMap.2 ⟨edgeOfRelationship r0,
        List.mem_map.2 ⟨r0, List.mem_filter.2 ⟨hr, hv⟩, rfl⟩, ?_⟩)
      rcases hx with hx | hx
      · exact List.mem_cons.2 (Or.inl hx.symm)
      · exact List.mem_cons.2 (Or.inr (List.mem_singleton.2 hx.symm))

/-- C6, counterexample: entity `e1` has `valid_from = 10`, so it is NOT
valid at `as_of = 5` (the claim says it does not appear), yet after
`build(5)` the id `e1` IS a node of the graph: the relationship
`r1 : e1 -> e1` (valid from 0) is selected and `add_edge` implicitly adds
its endpoints.  `number_of_nodes()` accordingly reports 1 even though no
entity row was loaded (`add_node` ran zero times). -/
theorem claim_C6_counterexample :
    ¬ ((10 : Int) ≤ 5) ∧
    "e1" ∈ nodeIds (buildGraphRun ⟨KGraph.clear, none⟩
      (storeOfTables [⟨"e1", "E1", "person", 1, 10, none⟩]
        [⟨"r1", "e1", "e1", "knows", 1, 0, none⟩]) 5 9).2.graph ∧
    (buildGraphRun ⟨KGraph.clear, none⟩
      (storeOfTables [⟨"e1", "E1", "person", 1, 10, none⟩]
        [⟨"r1", "e1", "e1", "knows", 1, 0, none⟩]) 5 9).1 = Except.ok 1 ∧
    (buildGraphRun ⟨KGraph.clear, none⟩
      (storeOfTables [⟨"e1", "E1", "person", 1, 10, none⟩]
        [⟨"r1", "e1", "e1", "knows", 1, 0, none⟩]) 5 9).2.graph.nodes = [] := by
  refine ⟨by decide, by decide, by decide, by decide⟩

/-- C6, amended: over tables with unique ids, an entity appears as an
*attributed* node (added by `add_node`) iff `T1 <= as_of < T2`
(`valid_until = None`: iff `as_of >= T1`), and a relationship's edge is
selected by exactly the same temporal predicate; but graph *membership* is
wider — an id is in the graph iff it is a valid entity's id OR an endpoint
of some valid relationship, because `add_edge` implicitly adds missing
endpoints — and the node count `build` returns counts this wider set. -/
theorem claim_C6_amended (ents : List Entity) (rels : List Relationship)
    (st : KGState) (asOf now : Int) (e : Entity) (r : Relationship)
    (x : String)
    (hne : (ents.map Entity.id).Nodup) (hnr : (rels.map Relationship.id).Nodup)
    (he : e ∈ ents) (hr : r ∈ rels) :
    (∀ t2, e.valid_until = some t2 →
      (e.id ∈ ((buildGraphRun st (storeOfTables ents rels) asOf now).2.graph.nodes.map
          Prod.fst) ↔ (e.valid_from ≤ asOf ∧ asOf < t2))) ∧
    (e.valid_until = none →
      (e.id ∈ ((buildGraphRun st (storeOfTables ents rels) asOf now).2.graph.nodes.map
          Prod.fst) ↔ e.valid_from ≤ asOf)) ∧
    (r.id ∈ ((buildGraphRun st (storeOfTables ents rels) asOf now).2.graph.edges.map
        KEdge.key) ↔
      validAt r.valid_from r.valid_until asOf = true) ∧
    (x ∈ nodeIds (buildGraphRun st (storeOfTables ents rels) asOf now).2.graph ↔
      ((∃ e2 ∈ ents, validAt e2.valid_from e2.valid_until asOf = true ∧
          e2.id = x) ∨
       (∃ r2 ∈ rels, validAt r2.valid_from r2.valid_until asOf = true ∧
          (r2.source_entity_id = x ∨ r2.target_entity_id = x)))) ∧
    (buildGraphRun st (storeOfTables ents rels) asOf now).1 =
      Except.ok
        (nodeIds (buildGraphRun st (storeOfTables ents rels) asOf now).2.graph).length := by
  refine ⟨?_, ?_, mem_buildGraph_edges_iff ents rels st asOf now r hnr hr,
    mem_buildGraph_nodeIds_iff ents rels st asOf now x, rfl⟩
  · intro t2 ht2
    rw [mem_buildGraph_nodes_iff ents rels st asOf now e hne he]
    simp [validAt, ht2]
  · intro ht2
    rw [mem_buildGraph_nodes_iff ents rels st asOf now e hne he]
    simp [validAt, ht2]

/-- C6 amended, witness: entity `e1` valid on `[0, 10)` appears as an
attributed node when building as of 5, the relationship `r1 : e1 -> e2`
(valid from 0) is selected, and its target `e2` — which has no entity row at
all — is nonetheless a node of the graph. -/
theorem claim_C6_amended_witness :
    ("e1" : String) ∈
      ((buildGraphRun ⟨KGraph.clear, none⟩
          (storeOfTables [⟨"e1", "E1", "person", 1, 0, some 10⟩]
            [⟨"r1", "e1", "e2", "knows", 1, 0, none⟩]) 5 9).2.graph.nodes.map
        Prod.fst) ∧
    ("r1" : String) ∈
      ((buildGraphRun ⟨KGraph.clear, none⟩
          (storeOfTables [⟨"e1", "E1", "person", 1, 0, some 10⟩]
            [⟨"r1", "e1", "e2", "knows", 1, 0, none⟩]) 5 9).2.graph.edges.map
        KEdge.key) ∧
    ("e2" : String) ∈
      nodeIds (buildGraphRun ⟨KGraph.clear, none⟩
          (storeOfTables [⟨"e1", "E1", "person", 1, 0, some 10⟩]
            [⟨"r1", "e1", "e2", "knows", 1, 0, none⟩]) 5 9).2.graph := by
  refine ⟨?_, ?_, ?_⟩
  · exact ((claim_C6_amended [⟨"e1", "E1", "person", 1, 0, some 10⟩]
      [⟨"r1", "e1", "e2", "knows", 1, 0, none⟩] ⟨KGraph.clear, none⟩ 5 9
      ⟨"e1", "E1", "person", 1, 0, some 10⟩ ⟨"r1", "e1", "e2", "knows", 1, 0, none⟩
      "e2" (by decide) (by decide) (by decide) (by decide)).1 10 rfl).2
      ⟨by decide, by decide⟩
  · exact (claim_C6_amended [⟨"e1", "E1", "person", 1, 0, some 10⟩]
      [⟨"r1", "e1", "e2", "knows", 1, 0, none⟩] ⟨KGraph.clear, none⟩ 5 9
      ⟨"e1", "E1", "person", 1, 0, some 10⟩ ⟨"r1", "e1", "e2", "knows", 1, 0, none⟩
      "e2" (by decide) (by decide) (by decide) (by decide)).2.2.1.2 (by decide)
  · exact (claim_C6_amended [⟨"e1", "E1", "person", 1, 0, some 10⟩]
      [⟨"r1", "e1", "e2", "knows", 1, 0, none⟩] ⟨KGraph.clear, none⟩ 5 9
      ⟨"e1", "E1", "person", 1, 0, some 10⟩ ⟨"r1", "e1", "e2", "knows", 1, 0, none⟩
      "e2" (by decide) (by decide) (by decide) (by decide)).2.2.2.1.2
      (Or.inr ⟨⟨"r1", "e1", "e2", "knows", 1, 0, none⟩, by decide, by decide,
        Or.inr (by decide)⟩)

/-- `nx.all_simple_paths(graph, cur, tgt, cutoff=fuel)` modelled by its
documented behaviour: every simple directed path from `cur` to `tgt` with at
most `fuel` edges, enumerated depth-first with a visited set (`cur` is
already in `visited`; a path stops the first time it reaches `tgt`). -/
def simplePathsFrom (g : KGraph) (tgt : String) :
    Nat → String → List String → List (List String)
  | 0, cur, _ => if cur = tgt then [[cur]] else []
  | fuel + 1, cur, visited =>
      if cur = tgt then [[cur]]
      else
        ((successors g cur).filter (fun nb => !visited.contains nb)).flatMap
          (fun nb => (simplePathsFrom g tgt fuel nb (nb :: visited)).map
            (fun p => cur :: p))

/-- `find_paths(source_id, target_id, max_depth, cutoff)`: all simple paths
with at most `max_depth` edges; empty if either endpoint is absent.  Python's
`if cutoff:` means a cutoff of 0 is falsy and does not truncate. -/
def findPaths (g : KGraph) (s t : String) (maxDepth : Nat)
    (cutoff : Option Nat) : List (List String) :=
  if s ∈ nodeIds g ∧ t ∈ nodeIds g then
    match cutoff with
    | some 0 => simplePathsFrom g t maxDepth s [s]
    | some (c + 1) => (simplePathsFrom g t maxDepth s [s]).take (c + 1)
    | none => simplePathsFrom g t maxDepth s [s]
  else []

/-- `find_shortest_path(source_id, target_id)`: `nx.shortest_path` modelled
by its documented behaviour — a directed path of minimal length when one
exists.  A fuel of `|nodeIds|` covers every simple path, and `argmin` picks
a minimal-length one. -/
def findShortestPath (g : KGraph) (s t : String) : Option (List String) :=
  if s ∈ nodeIds g ∧ t ∈ nodeIds g then
    (simplePathsFrom g t (nodeIds g).length s [s]).argmin List.length
  else none

theorem successors_subset_nodeIds (g : KGraph) (a x : String)
    (h : x ∈ successors g a) : x ∈ nodeIds g := by
  simp only [successors, List.mem_dedup, List.mem_map, List.mem_filter] at h
  rcases h with ⟨e, ⟨he, _⟩, rfl⟩
  simp only [nodeIds, List.mem_dedup, List.mem_append, List.mem_flatMap]
  exact Or.inr ⟨e, he, by simp⟩

theorem simplePathsFrom_sound (g : KGraph) (tgt : String) :
    ∀ (fuel : Nat) (cur : String) (visited : List String) (p : List String),
      p ∈ simplePathsFrom g tgt fuel cur visited →
      ∃ rest, p = cur :: rest ∧ (∀ x ∈ rest, x ∉ visited) ∧ rest.Nodup ∧
        List.Chain (fun a b => b ∈ successors g a) cur rest ∧
        p.getLast? = some tgt ∧ rest.length ≤ fuel := by
  intro fuel
  induction fuel with
  | zero =>
    intro cur visited p hp
    simp only [simplePathsFrom] at hp
    by_cases h : cur = tgt
    · rw [if_pos h] at hp
      rcases List.mem_singleton.1 hp with rfl
      exact ⟨[], rfl, by simp, List.nodup_nil, List.Chain.nil, by simp [h], by simp⟩
    · rw [if_neg h] at hp
      exact absurd hp (List.not_mem_nil p)
  | succ fuel ih =>
    intro cur visited p hp
    simp only [simplePathsFrom] at hp
    by_cases h : cur = tgt
    · rw [if_pos h] at hp
      rcases List.mem_singleton.1 hp with rfl
      exact ⟨[], rfl, by simp, List.nodup_nil, List.Chain.nil, by simp [h], by simp⟩
    · rw [if_neg h] at hp
      rcases List.mem_flatMap.1 hp with ⟨nb, hnb, hmap⟩
      rcases List.mem_map.1 hmap with ⟨q, hq, rfl⟩
      rcases List.mem_filter.1 hnb with ⟨hnbsucc, hnbvis⟩
      have hnbvis' : nb ∉ visited := by
        simpa [List.elem_eq_mem] using hnbvis
      rcases ih nb (nb :: visited) q hq with
        ⟨rest2, rfl, hrest2vis, hrest2nd, hchain2, hlast2, hlen2⟩
      refine ⟨nb :: rest2, rfl, ?_, ?_, ?_, ?_,
        by simp only [List.length_cons]; omega⟩
      · intro x hx
        rcases List.mem_cons.1 hx with rfl | hx
        · exact hnbvis'
        · intro hxv
          exact hrest2vis x hx (List.mem_cons_of_mem _ hxv)
      · refine List.nodup_cons.2 ⟨?_, hrest2nd⟩
        intro hmem
        exact hrest2vis nb hmem (List.mem_cons_self _ _)
      · exact List.Chain.cons hnbsucc hchain2
      · simpa using hlast2

theorem simplePathsFrom_complete (g : KGraph) (tgt : String) :
    ∀ (rest : List String) (fuel : Nat) (cur : String) (visited : List String),
      cur ∈ visited → (∀ x ∈ rest, x ∉ visited) → rest.Nodup →
      List.Chain (fun a b => b ∈ successors g a) cur rest →
      (cur :: rest).getLast? = some tgt → rest.length ≤ fuel →
      (cur :: rest) ∈ simplePathsFrom g tgt fuel cur visited := by
  intro rest
  induction rest with
  | nil =>
    intro fuel cur visited _ _ _ _ hlast _
    have hcur : cur = tgt := by simpa using hlast
    cases fuel with
    | zero => simp [simplePathsFrom, hcur]
    | succ fuel => simp [simplePathsFrom, hcur]
  | cons nb rest2 ih =>
    intro fuel cur visited hcv hvis hnd hchain hlast hlen
    have hlast' : (nb :: rest2).getLast? = some tgt := by
      simpa using hlast
    have htgtmem : tgt ∈ nb :: rest2 := List.mem_of_mem_getLast? hlast'
    have hcur : cur ≠ tgt := by
      intro hct
      exact hvis tgt htgtmem (hct ▸ hcv)
    cases fuel with
    | zero => simp at hlen
    | succ fuel =>
      simp only [simplePathsFrom, if_neg hcur]
      rcases List.chain_cons.1 hchain with ⟨hsucc, hchain2⟩
      refine List.mem_flatMap.2 ⟨nb, ?_, ?_⟩
      · refine List.mem_filter.2 ⟨hsucc, ?_⟩
        simp only [Bool.not_eq_true', List.elem_eq_mem, decide_eq_false_iff_not]
        exact hvis nb (List.mem_cons_self _ _)
      · refine List.mem_map.2 ⟨nb :: rest2, ?_, rfl⟩
        rcases List.nodup_cons.1 hnd with ⟨hnbrest2, hnd2⟩
        refine ih fuel nb (nb :: visited) (List.mem_cons_self _ _) ?_ hnd2
          hchain2 hlast' (by simpa using hlen)
        intro x hx hxv
        rcases List.mem_cons.1 hxv with rfl | hxv'
        · exact hnbrest2 hx
        · exact hvis x (List.mem_cons_of_mem _ hx) hxv'

theorem chain_mem_nodeIds (g : KGraph) :
    ∀ (rest : List String) (cur : String),
      List.Chain (fun a b => b ∈ successors g a) cur rest →
      ∀ x ∈ rest, x ∈ nodeIds g := by
  intro rest
  induction rest with
  | nil => intro cur _ x hx; exact absurd hx (List.not_mem_nil x)
  | cons nb rest2 ih =>
    intro cur hchain x hx
    rcases List.chain_cons.1 hchain with ⟨hsucc, hchain2⟩
    rcases List.mem_cons.1 hx with rfl | hx
    · exact successors_subset_nodeIds g cur x hsucc
    · exact ih nb hchain2 x hx

/-- C7: every path returned by `find_paths(source, target, max_depth,
cutoff)` is at least as long (in nodes) as the path returned by
`find_shortest_path(source, target)`, for all `max_depth` and `cutoff`. -/
theorem claim_C7_path_monotonicity (g : KGraph) (s t : String)
    (maxDepth : Nat) (cutoff : Option Nat) (p q : List String)
    (hp : p ∈ findPaths g s t maxDepth cutoff)
    (hq : findShortestPath g s t = some q) :
    q.length ≤ p.length := by
  unfold findPaths at hp
  by_cases hg : s ∈ nodeIds g ∧ t ∈ nodeIds g
  · rw [if_pos hg] at hp
    have hp' : p ∈ simplePathsFrom g t maxDepth s [s] := by
      rcases cutoff with _ | c
      · exact hp
      · rcases c with _ | c
        · exact hp
        · exact List.mem_of_mem_take hp
    rcases simplePathsFrom_sound g t maxDepth s [s] p hp' with
      ⟨rest, rfl, hvis, hnd, hchain, hlast, _⟩
    have hpnd : (s :: rest).Nodup := by
      refine List.nodup_cons.2 ⟨?_, hnd⟩
      intro hmem
      exact hvis s hmem (List.mem_singleton.2 rfl)
    have hpsub : (s :: rest) ⊆ nodeIds g := by
      intro x hx
      rcases List.mem_cons.1 hx with rfl | hx
      · exact hg.1
      · exact chain_mem_nodeIds g rest s hchain x hx
    have hplen : (s :: rest).length ≤ (nodeIds g).length :=
      (List.subperm_of_subset hpnd hpsub).length_le
    have hmemN : (s :: rest) ∈ simplePathsFrom g t (nodeIds g).length s [s] := by
      refine simplePathsFrom_complete g t rest (nodeIds g).length s [s]
        (List.mem_singleton.2 rfl) hvis hnd hchain hlast ?_
      simp only [List.length_cons] at hplen
      omega
    unfold findShortestPath at hq
    rw [if_pos hg] at hq
    exact List.le_of_mem_argmin hmemN (Option.mem_def.2 hq)
  · rw [if_neg hg] at hp
    exact absurd hp (List.not_mem_nil p)

/-- C7, witness: on `A -> B -> C` with shortcut `A -> C`, `find_paths`
returns the two-edge path `[A, B, C]` and `find_shortest_path` returns
`[A, C]`, and the claimed inequality is obtained from the theorem. -/
theorem claim_C7_witness :
    (["A", "B", "C"] ∈ findPaths
        (KGraph.mk [("A", ⟨"A", "t", 1⟩), ("B", ⟨"B", "t", 1⟩), ("C", ⟨"C", "t", 1⟩)]
          [⟨"A", "B", "e1", ⟨"r", 1⟩⟩, ⟨"B", "C", "e2", ⟨"r", 1⟩⟩,
           ⟨"A", "C", "e3", ⟨"r", 1⟩⟩]) "A" "C" 3 none) ∧
    (findShortestPath
        (KGraph.mk [("A", ⟨"A", "t", 1⟩), ("B", ⟨"B", "t", 1⟩), ("C", ⟨"C", "t", 1⟩)]
          [⟨"A", "B", "e1", ⟨"r", 1⟩⟩, ⟨"B", "C", "e2", ⟨"r", 1⟩⟩,
           ⟨"A", "C", "e3", ⟨"r", 1⟩⟩]) "A" "C" = some ["A", "C"]) ∧
    (["A", "C"] : List String).length ≤ (["A", "B", "C"] : List String).length := by
  refine ⟨by decide, by decide, ?_⟩
  exact claim_C7_path_monotonicity
    (KGraph.mk [("A", ⟨"A", "t", 1⟩), ("B", ⟨"B", "t", 1⟩), ("C", ⟨"C", "t", 1⟩)]
      [⟨"A", "B", "e1", ⟨"r", 1⟩⟩, ⟨"B", "C", "e2", ⟨"r", 1⟩⟩,
       ⟨"A", "C", "e3", ⟨"r", 1⟩⟩]) "A" "C" 3 none ["A", "B", "C"] ["A", "C"]
    (by decide) (by decide)

/-- Nodes reachable from `s` in at most `k` steps of *undirected* adjacency
(an edge in either direction), as used on `graph.to_undirected()`. -/
def ureachSet (g : KGraph) (s : String) : Nat → List String
  | 0 => [s]
  | k + 1 =>
      (ureachSet g s k ++ (ureachSet g s k).flatMap
        (fun x => successors g x ++ predecessors g x)).dedup

/-- Undirected shortest-path distance from `s` to `t`: the least `k` with
`t` reachable in at most `k` undirected steps (`none` if unreachable; every
reachable node is reached within `|nodeIds|` steps).  This models
`nx.single_source_shortest_path_length(graph.to_undirected(), s)[t]`. -/
def udist (g : KGraph) (s t : String) : Option Nat :=
  (List.range ((nodeIds g).length + 1)).find?
    (fun k => (ureachSet g s k).contains t)

/-- `nx.single_source_shortest_path_length(graph.to_undirected(), s,
cutoff)`: every node at undirected distance at most `cutoff`, with its
distance.  (nx enumerates in BFS-discovery order; the claims under proof
never constrain this pre-sort order, so node-id order is used.) -/
def shortestPathLengths (g : KGraph) (s : String) (cutoff : Nat) :
    List (String × Nat) :=
  (nodeIds g).filterMap (fun t =>
    match udist g s t with
    | some d => if d ≤ cutoff then some (t, d) else none
    | none => none)

/-- One record of `find_related_entities`' result list. -/
structure RelatedEntity where
  id : String
  name : String
  entity_type : String
  distance : Nat
  confidence : ℚ
deriving DecidableEq, Repr

/-- `self.graph.nodes[x]` attribute lookup with dict defaults
(`.get("confidence", 0.0)` etc.); repeated `add_node` overwrites, so the
last binding wins. -/
def nodeDataOf (g : KGraph) (x : String) : NodeData :=
  (((g.nodes.filter (fun p => decide (p.1 = x))).getLast?).map Prod.snd).getD
    ⟨"", "", 0⟩

/-- The `entity_type` filter: Python `if entity_type and ... != entity_type`
treats `None` and the empty string as falsy (filter disabled). -/
def typeFilterOk (et : Option String) (t : String) : Bool :=
  match et with
  | none => true
  | some "" => true
  | some s => decide (t = s)

/-- The sort key `(distance, -confidence)`: distance ascending, confidence
descending within equal distance. -/
def relatedLe (a b : RelatedEntity) : Bool :=
  decide (a.distance < b.distance) ||
    (decide (a.distance = b.distance) && decide (b.confidence ≤ a.confidence))

/-- `find_related_entities(entity_id, entity_type, max_distance)`:
undirected shortest-path distances bounded by `max_distance`, source
excluded, optional type filter, sorted by `(distance, -confidence)`. -/
def findRelatedEntities (g : KGraph) (entityId : String)
    (entityType : Option String) (maxDistance : Nat) : List RelatedEntity :=
  if entityId ∈ nodeIds g then
    stableSort relatedLe
      ((shortestPathLengths g entityId maxDistance).filterMap
        (fun td =>
          if td.1 = entityId then none
          else if typeFilterOk entityType (nodeDataOf g td.1).entity_type then
            some { id := td.1, name := (nodeDataOf g td.1).name,
                   entity_type := (nodeDataOf g td.1).entity_type,
                   distance := td.2,
                   confidence := (nodeDataOf g td.1).confidence }
          else none))
  else []

theorem mem_shortestPathLengths {g : KGraph} {s : String} {cutoff : Nat}
    {t : String} {d : Nat} :
    (t, d) ∈ shortestPathLengths g s cutoff ↔
      t ∈ nodeIds g ∧ udist g s t = some d ∧ d ≤ cutoff := by
  simp only [shortestPathLengths, List.mem_filterMap]
  constructor
  · rintro ⟨a, ha, hf⟩
    rcases hh : udist g s a with _ | d'
    · simp [hh] at hf
    · simp only [hh] at hf
      by_cases hd : d' ≤ cutoff
      · simp only [if_pos hd, Option.some.injEq, Prod.mk.injEq] at hf
        obtain ⟨rfl, rfl⟩ := hf
        exact ⟨ha, hh, hd⟩
      · simp [if_neg hd] at hf
  · rintro ⟨ht, hu, hd⟩
    exact ⟨t, ht, by simp [hu, hd]⟩

theorem relatedLe_trans (a b c : RelatedEntity)
    (hab : relatedLe a b = true) (hbc : relatedLe b c = true) :
    relatedLe a c = true := by
  simp only [relatedLe, Bool.or_eq_true, Bool.and_eq_true,
    decide_eq_true_eq] at hab hbc ⊢
  rcases hab with h1 | ⟨h1, h1c⟩ <;> rcases hbc with h2 | ⟨h2, h2c⟩
  · exact Or.inl (Nat.lt_trans h1 h2)
  · exact Or.inl (h2 ▸ h1)
  · exact Or.inl (h1 ▸ h2)
  · exact Or.inr ⟨h1.trans h2, h2c.trans h1c⟩

theorem relatedLe_total (a b : RelatedEntity) :
    relatedLe a b = true ∨ relatedLe b a = true := by
  simp only [relatedLe, Bool.or_eq_true, Bool.and_eq_true,
    decide_eq_true_eq]
  rcases Nat.lt_trichotomy a.distance b.distance with h | h | h
  · exact Or.inl (Or.inl h)
  · rcases le_total a.confidence b.confidence with hc | hc
    · exact Or.inr (Or.inr ⟨h.symm, hc⟩)
    · exact Or.inl (Or.inr ⟨h, hc⟩)
  · exact Or.inr (Or.inl h)

/-- C8: `find_related_entities(entity_id, entity_type, max_distance)` for an
entity in the graph returns exactly the nodes whose undirected shortest-path
distance from the source is defined and at most `max_distance`, excluding
the source itself and applying the type filter; and the list is sorted by
distance ascending, confidence descending within equal distance. -/
theorem claim_C8_find_related (g : KGraph) (entityId : String)
    (entityType : Option String) (maxDistance : Nat)
    (hg : entityId ∈ nodeIds g) :
    (∀ r ∈ findRelatedEntities g entityId entityType maxDistance,
      r.id ≠ entityId ∧ udist g entityId r.id = some r.distance ∧
        r.distance ≤ maxDistance ∧
        typeFilterOk entityType r.entity_type = true) ∧
    (∀ x d, x ∈ nodeIds g → x ≠ entityId →
      udist g entityId x = some d → d ≤ maxDistance →
      typeFilterOk entityType (nodeDataOf g x).entity_type = true →
      ∃ r ∈ findRelatedEntities g entityId entityType maxDistance,
        r.id = x ∧ r.distance = d) ∧
    (findRelatedEntities g entityId entityType maxDistance).Pairwise
      (fun a b => relatedLe a b = true) := by
  unfold findRelatedEntities
  rw [if_pos hg]
  refine ⟨?_, ?_, ?_⟩
  · intro r hr
    have hr' := (stableSort_perm relatedLe _).mem_iff.1 hr
    rcases List.mem_filterMap.1 hr' with ⟨td, htd, hf⟩
    rcases td with ⟨tid, dd⟩
    by_cases h1 : tid = entityId
    · simp [h1] at hf
    · rw [if_neg h1] at hf
      by_cases h2 : typeFilterOk entityType (nodeDataOf g tid).entity_type
      · rw [if_pos h2] at hf
        obtain rfl := Option.some.inj hf
        rcases mem_shortestPathLengths.1 htd with ⟨_, hu, hd⟩
        exact ⟨h1, hu, hd, h2⟩
      · simp [if_neg h2] at hf
  · intro x d hx hne hu hd hty
    refine ⟨{ id := x, name := (nodeDataOf g x).name,
              entity_type := (nodeDataOf g x).entity_type, distance := d,
              confidence := (nodeDataOf g x).confidence }, ?_, rfl, rfl⟩
    refine (stableSort_perm relatedLe _).mem_iff.2 ?_
    refine List.mem_filterMap.2 ⟨(x, d), mem_shortestPathLengths.2 ⟨hx, hu, hd⟩, ?_⟩
    rw [if_neg hne, if_pos hty]
  · exact stableSort_pairwise relatedLe
      (fun a b c => relatedLe_trans a b c) relatedLe_total _

/-- C8, witness: on the graph with the single edge `B -> A`, querying from
`A` finds `B` at undirected distance 1, and the result list is sorted. -/
theorem claim_C8_witness :
    (∃ r ∈ findRelatedEntities incomingOnlyGraph "A" none 2,
      r.id = "B" ∧ r.distance = 1) ∧
    (findRelatedEntities incomingOnlyGraph "A" none 2).Pairwise
      (fun a b => relatedLe a b = true) := by
  constructor
  · exact (claim_C8_find_related incomingOnlyGraph "A" none 2 (by decide)).2.1
      "B" 1 (by decide) (by decide) (by decide) (by decide) (by decide)
  · exact (claim_C8_find_related incomingOnlyGraph "A" none 2 (by decide)).2.2

inductive ItemType
  | message
  | entity
  | relationship
deriving DecidableEq, Repr

inductive SearchSource
  | semantic
  | keyword
  | graph
deriving DecidableEq, Repr

/-- One `SearchResult` dataclass instance (`metadata` elided: carried
verbatim, never inspected by search or fusion). -/
structure SearchResult where
  item_id : String
  item_type : ItemType
  content : String
  score : ℚ
  source : SearchSource
deriving DecidableEq, Repr

/-- The fusion key.  The code builds the string `item_type + ":" + item_id`;
the type tags `message` / `entity` / `relationship` contain no colon, so
that string determines and is determined by this pair, which is used
directly. -/
def SearchResult.key (r : SearchResult) : ItemType × String :=
  (r.item_type, r.item_id)

/-- Python `if x:` truthiness for an optional string filter value: `None`
and the empty string are falsy. -/
def normStrOpt : Option String → Option String
  | some "" => none
  | o => o

/-- `str.lower()`, modelled on the character list (charwise lowering). -/
def lowerChars (s : String) : List Char := s.toList.map Char.toLower

/-- `str.count(sub)` — non-overlapping occurrences scanned left to right;
`fuel` bounds the recursion by the text length. -/
def countOccsFuel (sub : List Char) : Nat → List Char → Nat
  | 0, _ => 0
  | _ + 1, [] => 0
  | fuel + 1, c :: rest =>
      if sub.isPrefixOf (c :: rest) then
        1 + countOccsFuel sub fuel ((c :: rest).drop sub.length)
      else countOccsFuel sub fuel rest

/-- `str.count(sub)` (Python counts `len(s) + 1` for the empty pattern). -/
def countOccs (sub s : List Char) : Nat :=
  if sub.isEmpty then s.length + 1 else countOccsFuel sub s.length s

/-- A hit returned by `qdrant.search` (payload fields the code reads). -/
structure QdrantHit where
  id : String
  score : ℚ
  conversation_id : Option String
  content : String
deriving DecidableEq, Repr

/-- A `Message` row returned by the keyword LIKE query (already filtered by
the store on content and conversation_id). -/
structure MessageRow where
  id : String
  content : String
deriving DecidableEq, Repr

/-- An `Entity` row returned by the keyword / seed LIKE queries. -/
structure EntityRow where
  id : String
  name : String
  description : String
  entity_type : String
  confidence : ℚ
deriving DecidableEq, Repr

/-- The `filters` mapping (the two keys the code reads). -/
structure Filters where
  conversation_id : Option String
  entity_type : Option String
deriving DecidableEq, Repr

/-- Everything `search` consumes from the outside world for one query:
the embedding call and vector-client call (each may raise), and the rows the
Temporal Store returns to the three LIKE queries (their `WHERE`/`LIMIT`
clauses run inside the store; `LIMIT` is applied via `take` below). -/
structure SearchBackend where
  encodeResult : Except String (List ℚ)
  qdrantResult : Except String (List QdrantHit)
  msgRows : List MessageRow
  entRows : List EntityRow
  seedRows : List EntityRow
  kg : KGraph
  query : String
deriving Repr

/-- `_semantic_search`: the embedding call is OUTSIDE the `try`, so its
failure propagates; only the `qdrant.search` call is guarded, returning `[]`
on error.  Hits are post-filtered by `conversation_id` and truncated to
`limit`. -/
def semanticSearch (b : SearchBackend) (filters : Filters) (limit : Nat)
    (minScore : ℚ) : Except String (List SearchResult) :=
  match b.encodeResult with
  | Except.error msg => Except.error msg
  | Except.ok _ =>
    match b.qdrantResult with
    | Except.error _ => Except.ok []
    | Except.ok hits =>
      Except.ok
        (((hits.filter (fun h =>
            match normStrOpt filters.conversation_id with
            | none => true
            | some cid => decide (h.conversation_id = some cid))).map
          (fun h =>
            { item_id := h.id, item_type := ItemType.message,
              content := h.content, score := h.score,
              source := SearchSource.semantic })).take limit)

/-- Message part of `_keyword_search`: score
`min(count(query) / max(len(content), 1) * 10, 1.0)` over lowercased text. -/
def keywordMessageResults (b : SearchBackend) (limit : Nat) :
    List SearchResult :=
  (b.msgRows.take limit).map (fun m =>
    let contentLower := lowerChars m.content
    let queryLower := lowerChars b.query
    let base : ℚ := (countOccs queryLower contentLower : ℚ) /
      (max contentLower.length 1 : ℚ)
    { item_id := m.id, item_type := ItemType.message, content := m.content,
      score := min (base * 10) 1, source := SearchSource.keyword })

/-- Entity part of `_keyword_search`: 0.9 on a name match, 0.6 otherwise. -/
def keywordEntityResults (b : SearchBackend) (limit : Nat) :
    List SearchResult :=
  (b.entRows.take limit).map (fun e =>
    { item_id := e.id, item_type := ItemType.entity,
      content := e.name ++ ": " ++ e.description,
      score := if 0 < countOccs (lowerChars b.query) (lowerChars e.name)
               then (9 : ℚ) / 10 else (6 : ℚ) / 10,
      source := SearchSource.keyword })

/-- `_keyword_search`: its first statement evaluates `sa.select(Message)`,
but `Message` is imported only under `if TYPE_CHECKING:` and is never bound
in the module at runtime, so every call raises `NameError` before reaching
the database.  The scoring described by the dead code below that line is
kept above in `keywordMessageResults` / `keywordEntityResults` for
reference. -/
def keywordSearch (b : SearchBackend) (limit : Nat) :
    Except String (List SearchResult) :=
  Except.error "NameError: name Message is not defined"

/-- `_graph_search`: up to 5 seed entities (SQL `LIMIT 5`); seeds absent
from the graph are skipped; each seed contributes its related entities at
`max_distance = 2` (at most `limit` of them) with score
`1 / (1 + 0.3 * distance)`. -/
def graphSearch (b : SearchBackend) (filters : Filters) (limit : Nat) :
    List SearchResult :=
  (b.seedRows.take 5).flatMap (fun seed =>
    if seed.id ∈ nodeIds b.kg then
      ((findRelatedEntities b.kg seed.id filters.entity_type 2).take limit).map
        (fun re =>
          { item_id := re.id, item_type := ItemType.entity,
            content := re.name ++ " (" ++ re.entity_type ++ ")",
            score := 10 / (10 + 3 * (re.distance : ℚ)),
            source := SearchSource.graph })
    else [])

/-- Sorting predicate `score descending` (`sort(key=score, reverse=True)`;
Python's sort is stable, as is `mergeSort`). -/
def scoreDescLe (a b : SearchResult) : Bool :=
  decide (b.score ≤ a.score)

/-- One accumulator entry of `_fuse_results`: the running RRF score and the
representative item for a key (the code keeps these in the two dicts
`rrf_scores` and `item_map`, which always hold the same key set and are
updated together; `item_map[key] = result` makes the last writer win). -/
structure FuseEntry where
  key : ItemType × String
  score : ℚ
  item : SearchResult
deriving DecidableEq, Repr

/-- Process one `(key, contribution, item)` triple: add to the existing
entry in place, or append a fresh entry (Python dict update semantics). -/
def insertPair (acc : List FuseEntry) (p : (ItemType × String) × ℚ × SearchResult) :
    List FuseEntry :=
  if acc.any (fun e => decide (e.key = p.1)) then
    acc.map (fun e =>
      if e.key = p.1 then { key := e.key, score := e.score + p.2.1, item := p.2.2 }
      else e)
  else acc ++ [⟨p.1, p.2.1, p.2.2⟩]

/-- The `(key, 1/(60+rank), item)` triples in processing order: sources in
first-appearance order, each source's results sorted by its own score
descending and enumerated from rank 1 (`k = 60`). -/
def rrfPairs (results : List SearchResult) :
    List ((ItemType × String) × ℚ × SearchResult) :=
  (firstDedup (results.map SearchResult.source)).flatMap (fun src =>
    ((stableSort scoreDescLe
        (results.filter (fun r => decide (r.source = src)))).enum).map
      (fun ir => (ir.2.key, (1 : ℚ) / (60 + (ir.1 + 1)), ir.2)))

/-- The total RRF contribution of key `k`: the sum of `1/(60+rank)` over all
of `k`'s per-source ranks. -/
def rrfSum (results : List SearchResult) (k : ItemType × String) : ℚ :=
  (((rrfPairs results).filter (fun p => decide (p.1 = k))).map
    (fun p => p.2.1)).sum

/-- `_fuse_results` before the final `[:limit]` truncation: accumulate the
RRF dict, sort its entries by fused score descending, and replace each
item's score by its fused score. -/
def fuseResultsFull (results : List SearchResult) : List SearchResult :=
  ((stableSort (fun a b => decide (b.score ≤ a.score))
      ((rrfPairs results).foldl insertPair [])).map
    (fun e => { e.item with score := e.score }))

/-- `_fuse_results(results, limit)`. -/
def fuseResults (results : List SearchResult) (limit : Nat) :
    List SearchResult :=
  (fuseResultsFull results).take limit

/-- `search(session, query, mode, filters, limit, min_score)`: dispatch the
strategies selected by `mode`, fuse (hybrid) or sort (single mode), then
apply the final `score >= min_score` filter.  An unguarded strategy failure
propagates. -/
def searchRun (b : SearchBackend) (mode : String) (filters : Filters)
    (limit : Nat) (minScore : ℚ) : Except String (List SearchResult) :=
  match (if mode = "hybrid" ∨ mode = "semantic"
         then semanticSearch b filters limit minScore
         else Except.ok []) with
  | Except.error msg => Except.error msg
  | Except.ok semRes =>
    match (if mode = "hybrid" ∨ mode = "keyword"
           then keywordSearch b limit
           else Except.ok []) with
    | Except.error msg => Except.error msg
    | Except.ok kwRes =>
      let grRes := if mode = "hybrid" ∨ mode = "graph"
                   then graphSearch b filters limit else []
      let results := semRes ++ kwRes ++ grRes
      let ranked := if mode = "hybrid" then fuseResults results limit
                    else (stableSort scoreDescLe results).take limit
      Except.ok (ranked.filter (fun r => decide (minScore ≤ r.score)))


/-- C3: in every mode, no returned result's score (fused in hybrid mode,
native otherwise) is below `min_score`: the final filter
`r.score >= min_score` runs after fusion/sorting, regardless of mode. -/
theorem claim_C3_min_score (b : SearchBackend) (mode : String)
    (filters : Filters) (limit : Nat) (minScore : ℚ) (l : List SearchResult)
    (h : searchRun b mode filters limit minScore = Except.ok l) :
    ∀ r ∈ l, minScore ≤ r.score := by
  unfold searchRun at h
  cases hsem : (if mode = "hybrid" ∨ mode = "semantic"
      then semanticSearch b filters limit minScore else Except.ok []) with
  | error msg => rw [hsem] at h; exact absurd h (by simp)
  | ok semRes =>
    rw [hsem] at h
    cases hkw : (if mode = "hybrid" ∨ mode = "keyword"
        then keywordSearch b limit else Except.ok []) with
    | error msg => rw [hkw] at h; exact absurd h (by simp)
    | ok kwRes =>
      rw [hkw] at h
      simp only [Except.ok.injEq] at h
      subst h
      intro r hr
      have hmem := List.mem_filter.1 hr
      simpa using hmem.2

/-- A backend whose vector client returns one integer-scored hit. -/
def semBackend : SearchBackend :=
  { encodeResult := Except.ok []
    qdrantResult := Except.ok [⟨"m1", 1, none, "hello"⟩]
    msgRows := [], entRows := [], seedRows := []
    kg := KGraph.clear, query := "hello" }

/-- C3, witness: a concrete semantic-mode run returning one result, whose
score respects the threshold by the theorem. -/
theorem claim_C3_witness :
    searchRun semBackend "semantic" ⟨none, none⟩ 10 0 =
      Except.ok [⟨"m1", ItemType.message, "hello", 1, SearchSource.semantic⟩] ∧
    (0 : ℚ) ≤ (⟨"m1", ItemType.message, "hello", 1,
        SearchSource.semantic⟩ : SearchResult).score :=
  ⟨by decide,
    claim_C3_min_score semBackend "semantic" ⟨none, none⟩ 10 0
      [⟨"m1", ItemType.message, "hello", 1, SearchSource.semantic⟩] (by decide)
      ⟨"m1", ItemType.message, "hello", 1, SearchSource.semantic⟩ (by simp)⟩

/-- Hybrid mode propagates a semantic-strategy error unchanged. -/
theorem searchRun_hybrid_error (b : SearchBackend) (filters : Filters)
    (limit : Nat) (minScore : ℚ) (msg : String)
    (hsem : semanticSearch b filters limit minScore = Except.error msg) :
    searchRun b "hybrid" filters limit minScore = Except.error msg := by
  unfold searchRun
  rw [if_pos (Or.inl rfl), hsem]

/-- When the semantic strategy succeeds, hybrid mode goes on to
`_keyword_search` and fails with its `NameError`. -/
theorem searchRun_hybrid_nameError (b : SearchBackend) (filters : Filters)
    (limit : Nat) (minScore : ℚ) (semRes : List SearchResult)
    (hsem : semanticSearch b filters limit minScore = Except.ok semRes) :
    searchRun b "hybrid" filters limit minScore =
      Except.error "NameError: name Message is not defined" := by
  unfold searchRun
  rw [if_pos (Or.inl rfl), hsem]
  rfl

/-- Semantic-mode runs sort the semantic results alone and filter. -/
theorem searchRun_semantic_eq (b : SearchBackend) (filters : Filters)
    (limit : Nat) (minScore : ℚ) (semRes : List SearchResult)
    (hsem : semanticSearch b filters limit minScore = Except.ok semRes) :
    searchRun b "semantic" filters limit minScore =
      Except.ok (((stableSort scoreDescLe semRes).take limit).filter
        (fun r => decide (minScore ≤ r.score))) := by
  unfold searchRun
  rw [if_pos (Or.inr rfl), hsem]
  have hk : ¬(("semantic" : String) = "hybrid" ∨
      ("semantic" : String) = "keyword") := by decide
  have hg : ¬(("semantic" : String) = "hybrid" ∨
      ("semantic" : String) = "graph") := by decide
  have hh : ¬(("semantic" : String) = "hybrid") := by decide
  simp only [if_neg hk, if_neg hg, if_neg hh]
  simp

/-- A backend whose embedding call raises. -/
def embedFailBackend : SearchBackend :=
  { encodeResult := Except.error "embedding failed"
    qdrantResult := Except.ok [], msgRows := [⟨"m1", "a"⟩], entRows := []
    seedRows := [], kg := KGraph.clear, query := "a" }

/-- C9, counterexample: when the embedding call raises, the overall hybrid
search fails with that error instead of degrading to the other strategies'
results — the `encode` call sits outside the `try` block guarding only
`qdrant.search`. -/
theorem claim_C9_counterexample :
    searchRun embedFailBackend "hybrid" ⟨none, none⟩ 10 ((1 : ℚ) / 2) =
      Except.error "embedding failed" := by
  rfl

/-- C9, amended: only a *vector-client* (`qdrant.search`) failure is caught
— the semantic strategy then returns the empty list and a semantic-mode
search call still completes, returning the remaining (empty) results.  An
*embedding* failure propagates and fails the whole search call in every
mode that runs the semantic strategy.  And a hybrid-mode call fails
regardless of the vector client: after the semantic strategy it runs
`_keyword_search`, which raises `NameError` on every call (`Message` is
imported only under `TYPE_CHECKING` and unbound at runtime). -/
theorem claim_C9_amended (b : SearchBackend) (filters : Filters)
    (limit : Nat) (minScore : ℚ) :
    (∀ msg, b.qdrantResult = Except.error msg →
      ∀ emb, b.encodeResult = Except.ok emb →
        semanticSearch b filters limit minScore = Except.ok [] ∧
        searchRun b "semantic" filters limit minScore = Except.ok []) ∧
    (∀ msg, b.encodeResult = Except.error msg →
      searchRun b "hybrid" filters limit minScore = Except.error msg ∧
      searchRun b "semantic" filters limit minScore = Except.error msg) ∧
    (∀ emb, b.encodeResult = Except.ok emb →
      searchRun b "hybrid" filters limit minScore =
        Except.error "NameError: name Message is not defined") := by
  refine ⟨?_, ?_, ?_⟩
  · intro msg hq emb henc
    have hsem : semanticSearch b filters limit minScore = Except.ok [] := by
      unfold semanticSearch
      rw [henc, hq]
    refine ⟨hsem, ?_⟩
    rw [searchRun_semantic_eq b filters limit minScore [] hsem]
    simp [stableSort]
  · intro msg henc
    have hsem : semanticSearch b filters limit minScore = Except.error msg := by
      unfold semanticSearch
      rw [henc]
    refine ⟨searchRun_hybrid_error b filters limit minScore msg hsem, ?_⟩
    unfold searchRun
    rw [if_pos (Or.inr rfl), hsem]
  · intro emb henc
    cases hq : b.qdrantResult with
    | error msg =>
      exact searchRun_hybrid_nameError b filters limit minScore []
        (by unfold semanticSearch; rw [henc, hq])
    | ok hits =>
      exact searchRun_hybrid_nameError b filters limit minScore _
        (by unfold semanticSearch; rw [henc, hq])

/-- A backend whose vector client raises but whose embedding call succeeds.
-/
def qdrantFailBackend : SearchBackend :=
  { encodeResult := Except.ok [], qdrantResult := Except.error "down"
    msgRows := [⟨"m1", "a"⟩], entRows := [], seedRows := []
    kg := KGraph.clear, query := "a" }

/-- C9 amended, witness: a concrete vector-client failure degrades
gracefully in semantic mode; a concrete embedding failure fails the call;
and a concrete hybrid call fails with the keyword `NameError`. -/
theorem claim_C9_amended_witness :
    (semanticSearch qdrantFailBackend ⟨none, none⟩ 10 ((1 : ℚ) / 2) =
      Except.ok [] ∧
     searchRun qdrantFailBackend "semantic" ⟨none, none⟩ 10 ((1 : ℚ) / 2) =
      Except.ok []) ∧
    (searchRun embedFailBackend "hybrid" ⟨none, none⟩ 10 ((1 : ℚ) / 2) =
      Except.error "embedding failed" ∧
     searchRun embedFailBackend "semantic" ⟨none, none⟩ 10 ((1 : ℚ) / 2) =
      Except.error "embedding failed") ∧
    searchRun qdrantFailBackend "hybrid" ⟨none, none⟩ 10 ((1 : ℚ) / 2) =
      Except.error "NameError: name Message is not defined" :=
  ⟨(claim_C9_amended qdrantFailBackend ⟨none, none⟩ 10 (1 / 2)).1
      "down" rfl [] rfl,
   (claim_C9_amended embedFailBackend ⟨none, none⟩ 10 (1 / 2)).2.1
      "embedding failed" rfl,
   (claim_C9_amended qdrantFailBackend ⟨none, none⟩ 10 (1 / 2)).2.2 [] rfl⟩

/-- The value stored for key `k` in the accumulated RRF dict (0 when the
key has no entries; with distinct keys, the single entry's running score). -/
def scoreAt (l : List FuseEntry) (k : ItemType × String) : ℚ :=
  ((l.filter (fun e => decide (e.key = k))).map FuseEntry.score).sum

theorem scoreAt_cons (e : FuseEntry) (l : List FuseEntry) (k : ItemType × String) :
    scoreAt (e :: l) k = (if e.key = k then e.score else 0) + scoreAt l k := by
  simp only [scoreAt, List.filter_cons]
  by_cases h : e.key = k
  · simp [h]
  · simp [h]

theorem scoreAt_append (l1 l2 : List FuseEntry) (k : ItemType × String) :
    scoreAt (l1 ++ l2) k = scoreAt l1 k + scoreAt l2 k := by
  simp [scoreAt, List.filter_append]

theorem insertPair_any_iff (acc : List FuseEntry)
    (p : (ItemType × String) × ℚ × SearchResult) :
    (acc.any (fun e => decide (e.key = p.1)) = true) ↔
      p.1 ∈ acc.map FuseEntry.key := by
  rw [List.any_eq_true]
  constructor
  · rintro ⟨e, he, hk⟩
    rw [decide_eq_true_eq] at hk
    exact List.mem_map.2 ⟨e, he, hk⟩
  · intro h
    rcases List.mem_map.1 h with ⟨e, he, hk⟩
    exact ⟨e, he, by rw [decide_eq_true_eq]; exact hk⟩

theorem insertPair_keys (acc : List FuseEntry)
    (p : (ItemType × String) × ℚ × SearchResult) :
    (insertPair acc p).map FuseEntry.key =
      if p.1 ∈ acc.map FuseEntry.key then acc.map FuseEntry.key
      else acc.map FuseEntry.key ++ [p.1] := by
  unfold insertPair
  by_cases h : p.1 ∈ acc.map FuseEntry.key
  · rw [if_pos ((insertPair_any_iff acc p).2 h), if_pos h, List.map_map]
    refine List.map_congr_left ?_
    intro e _
    by_cases he : e.key = p.1
    · simp [Function.comp, he]
    · simp [Function.comp, he]
  · rw [if_neg (fun hc => h ((insertPair_any_iff acc p).1 hc)), if_neg h]
    simp
theorem insertPair_keys_nodup (acc : List FuseEntry)
    (p : (ItemType × String) × ℚ × SearchResult)
    (hnd : (acc.map FuseEntry.key).Nodup) :
    ((insertPair acc p).map FuseEntry.key).Nodup := by
  rw [insertPair_keys]
  by_cases h : p.1 ∈ acc.map FuseEntry.key
  · rwa [if_pos h]
  · rw [if_neg h]
    simp [List.nodup_append, hnd, h]

theorem insertPair_item (acc : List FuseEntry)
    (p : (ItemType × String) × ℚ × SearchResult)
    (hacc : ∀ e ∈ acc, e.item.key = e.key) (hp : p.2.2.key = p.1) :
    ∀ e ∈ insertPair acc p, e.item.key = e.key := by
  unfold insertPair
  by_cases h : acc.any (fun e => decide (e.key = p.1)) = true
  · rw [if_pos h]
    intro e he
    rcases List.mem_map.1 he with ⟨e0, he0, rfl⟩
    by_cases hk : e0.key = p.1
    · simp only [if_pos hk]
      rw [hp, hk]
    · simp only [if_neg hk]
      exact hacc e0 he0
  · rw [if_neg h]
    intro e he
    rcases List.mem_append.1 he with he | he
    · exact hacc e he
    · rcases List.mem_singleton.1 he with rfl
      exact hp

theorem scoreAt_update (p : (ItemType × String) × ℚ × SearchResult)
    (k : ItemType × String) :
    ∀ acc : List FuseEntry, (acc.map FuseEntry.key).Nodup →
      scoreAt (acc.map (fun e =>
        if e.key = p.1 then { key := e.key, score := e.score + p.2.1, item := p.2.2 }
        else e)) k =
      scoreAt acc k +
        (if p.1 = k ∧ p.1 ∈ acc.map FuseEntry.key then p.2.1 else 0) := by
  intro acc
  induction acc with
  | nil => simp [scoreAt]
  | cons e acc ih =>
    intro hnd
    simp only [List.map_cons] at hnd
    rcases List.nodup_cons.1 hnd with ⟨hke, hnd2⟩
    by_cases he : e.key = p.1
    · have hfix : acc.map (fun x =>
          if x.key = p.1 then { key := x.key, score := x.score + p.2.1, item := p.2.2 }
          else x) = acc := by
        have hstep : ∀ x ∈ acc, (if x.key = p.1 then
            ({ key := x.key, score := x.score + p.2.1, item := p.2.2 } : FuseEntry)
            else x) = id x := by
          intro x hx
          have hxk : ¬x.key = p.1 := by
            intro hc
            refine hke ?_
            rw [he, ← hc]
            exact List.mem_map_of_mem _ hx
          simp [hxk]
        rw [List.map_congr_left hstep, List.map_id]
      simp only [List.map_cons, if_pos he, hfix]
      rw [scoreAt_cons, scoreAt_cons]
      dsimp only
      have hmem : p.1 ∈ FuseEntry.key e :: acc.map FuseEntry.key := by
        rw [← he]
        exact List.mem_cons_self _ _
      by_cases hk : p.1 = k
      · have hek : e.key = k := he.trans hk
        have hcond : p.1 = k ∧ p.1 ∈ FuseEntry.key e :: acc.map FuseEntry.key :=
          ⟨hk, hmem⟩
        rw [if_pos hcond, if_pos hek, if_pos hek]
        ring
      · have hek : ¬e.key = k := by rw [he]; exact hk
        have hcond : ¬(p.1 = k ∧ p.1 ∈ FuseEntry.key e :: acc.map FuseEntry.key) :=
          fun hx => hk hx.1
        rw [if_neg hcond, if_neg hek, if_neg hek]
        ring
    · simp only [List.map_cons, if_neg he]
      rw [scoreAt_cons, scoreAt_cons, ih hnd2]
      by_cases hc : p.1 = k ∧ p.1 ∈ acc.map FuseEntry.key
      · have hcond : p.1 = k ∧ p.1 ∈ FuseEntry.key e :: acc.map FuseEntry.key :=
          ⟨hc.1, List.mem_cons_of_mem _ hc.2⟩
        rw [if_pos hc, if_pos hcond]
        ring
      · have hcond : ¬(p.1 = k ∧ p.1 ∈ FuseEntry.key e :: acc.map FuseEntry.key) := by
          intro hx
          rcases List.mem_cons.1 hx.2 with h1 | h2
          · exact he h1.symm
          · exact hc ⟨hx.1, h2⟩
        rw [if_neg hc, if_neg hcond]
        ring

theorem insertPair_scoreAt (acc : List FuseEntry)
    (p : (ItemType × String) × ℚ × SearchResult) (k : ItemType × String)
    (hnd : (acc.map FuseEntry.key).Nodup) :
    scoreAt (insertPair acc p) k =
      scoreAt acc k + (if p.1 = k then p.2.1 else 0) := by
  unfold insertPair
  by_cases h : p.1 ∈ acc.map FuseEntry.key
  · rw [if_pos ((insertPair_any_iff acc p).2 h), scoreAt_update p k acc hnd]
    by_cases hk : p.1 = k
    · have hcond : p.1 = k ∧ p.1 ∈ acc.map FuseEntry.key := ⟨hk, h⟩
      rw [if_pos hcond, if_pos hk]
    · have hcond : ¬(p.1 = k ∧ p.1 ∈ acc.map FuseEntry.key) := fun hx => hk hx.1
      rw [if_neg hcond, if_neg hk]
  · rw [if_neg (fun hc => h ((insertPair_any_iff acc p).1 hc)), scoreAt_append,
      scoreAt_cons]
    dsimp only
    by_cases hk : p.1 = k
    · rw [if_pos hk]
      simp [scoreAt]
    · rw [if_neg hk]
      simp [scoreAt]

theorem foldl_insertPair_keys_nodup :
    ∀ (pairs : List ((ItemType × String) × ℚ × SearchResult))
      (acc : List FuseEntry), (acc.map FuseEntry.key).Nodup →
      ((pairs.foldl insertPair acc).map FuseEntry.key).Nodup := by
  intro pairs
  induction pairs with
  | nil => intro acc h; simpa using h
  | cons p pairs ih =>
    intro acc h
    simp only [List.foldl_cons]
    exact ih _ (insertPair_keys_nodup acc p h)

theorem foldl_insertPair_scoreAt :
    ∀ (pairs : List ((ItemType × String) × ℚ × SearchResult))
      (acc : List FuseEntry) (k : ItemType × String),
      (acc.map FuseEntry.key).Nodup →
      scoreAt (pairs.foldl insertPair acc) k =
        scoreAt acc k +
          ((pairs.filter (fun p => decide (p.1 = k))).map (fun p => p.2.1)).sum := by
  intro pairs
  induction pairs with
  | nil => intro acc k _; simp
  | cons p pairs ih =>
    intro acc k hnd
    simp only [List.foldl_cons]
    rw [ih _ k (insertPair_keys_nodup acc p hnd), insertPair_scoreAt acc p k hnd]
    by_cases h : p.1 = k
    · rw [if_pos h]
      have hf : ((p :: pairs).filter (fun q => decide (q.1 = k))) =
          p :: pairs.filter (fun q => decide (q.1 = k)) := by
        simp [List.filter_cons, h]
      rw [hf]
      simp only [List.map_cons, List.sum_cons]
      ring
    · rw [if_neg h]
      have hf : ((p :: pairs).filter (fun q => decide (q.1 = k))) =
          pairs.filter (fun q => decide (q.1 = k)) := by
        simp [List.filter_cons, h]
      rw [hf]
      ring

theorem foldl_insertPair_mem_keys :
    ∀ (pairs : List ((ItemType × String) × ℚ × SearchResult))
      (acc : List FuseEntry) (k : ItemType × String),
      (k ∈ (pairs.foldl insertPair acc).map FuseEntry.key ↔
        k ∈ acc.map FuseEntry.key ∨ k ∈ pairs.map (fun p => p.1)) := by
  intro pairs
  induction pairs with
  | nil => intro acc k; simp
  | cons p pairs ih =>
    intro acc k
    simp only [List.foldl_cons]
    rw [ih (insertPair acc p) k, insertPair_keys]
    by_cases h : p.1 ∈ acc.map FuseEntry.key
    · rw [if_pos h]
      simp only [List.map_cons, List.mem_cons]
      constructor
      · rintro (h1 | h2)
        · exact Or.inl h1
        · exact Or.inr (Or.inr h2)
      · rintro (h1 | rfl | h3)
        · exact Or.inl h1
        · exact Or.inl h
        · exact Or.inr h3
    · rw [if_neg h]
      simp only [List.mem_append, List.map_cons, List.mem_cons,
        List.not_mem_nil, or_false]
      constructor
      · rintro ((h1 | h2) | h3)
        · exact Or.inl h1
        · exact Or.inr (Or.inl h2)
        · exact Or.inr (Or.inr h3)
      · rintro (h1 | h2 | h3)
        · exact Or.inl (Or.inl h1)
        · exact Or.inl (Or.inr h2)
        · exact Or.inr h3

theorem foldl_insertPair_item :
    ∀ (pairs : List ((ItemType × String) × ℚ × SearchResult))
      (acc : List FuseEntry),
      (∀ e ∈ acc, e.item.key = e.key) → (∀ p ∈ pairs, p.2.2.key = p.1) →
      ∀ e ∈ pairs.foldl insertPair acc, e.item.key = e.key := by
  intro pairs
  induction pairs with
  | nil => intro acc hacc _; simpa using hacc
  | cons p pairs ih =>
    intro acc hacc hp
    simp only [List.foldl_cons]
    exact ih _ (insertPair_item acc p hacc (hp p (List.mem_cons_self _ _)))
      (fun q hq => hp q (List.mem_cons_of_mem _ hq))

theorem filter_key_singleton :
    ∀ (l : List FuseEntry), (l.map FuseEntry.key).Nodup →
      ∀ e ∈ l, l.filter (fun x => decide (x.key = e.key)) = [e] := by
  intro l
  induction l with
  | nil => intro _ e he; exact absurd he (List.not_mem_nil e)
  | cons a l ih =>
    intro hnd e he
    simp only [List.map_cons] at hnd
    rcases List.nodup_cons.1 hnd with ⟨hka, hnd2⟩
    rcases List.mem_cons.1 he with rfl | he
    · have hnone : l.filter (fun x => decide (x.key = e.key)) = [] := by
        rw [List.filter_eq_nil_iff]
        intro x hx
        simp only [decide_eq_true_eq]
        intro hc
        exact hka (hc ▸ List.mem_map_of_mem _ hx)
      simp [List.filter_cons, hnone]
    · have hne : ¬a.key = e.key := by
        intro hc
        exact hka (hc ▸ List.mem_map_of_mem _ he)
      simp only [List.filter_cons, decide_eq_true_eq, if_neg hne]
      exact ih hnd2 e he

theorem score_eq_scoreAt (l : List FuseEntry)
    (hnd : (l.map FuseEntry.key).Nodup) (e : FuseEntry) (he : e ∈ l) :
    e.score = scoreAt l e.key := by
  rw [scoreAt, filter_key_singleton l hnd e he]
  simp

theorem mem_firstDedup {α : Type} [DecidableEq α] :
    ∀ (l : List α) (x : α), x ∈ firstDedup l ↔ x ∈ l := by
  intro l
  induction l using firstDedup.induct with
  | case1 => intro x; simp [firstDedup]
  | case2 a rest ih =>
    intro x
    simp only [firstDedup, List.mem_cons]
    rw [ih x]
    constructor
    · rintro (rfl | hx)
      · exact Or.inl rfl
      · exact Or.inr (List.mem_filter.1 hx).1
    · rintro (rfl | hx)
      · exact Or.inl rfl
      · by_cases hxa : x = a
        · exact Or.inl hxa
        · exact Or.inr (List.mem_filter.2 ⟨hx, by simpa using hxa⟩)

theorem firstDedup_nodup {α : Type} [DecidableEq α] :
    ∀ l : List α, (firstDedup l).Nodup := by
  intro l
  induction l using firstDedup.induct with
  | case1 => simp [firstDedup]
  | case2 a rest ih =>
    simp only [firstDedup]
    refine List.nodup_cons.2 ⟨?_, ih⟩
    intro hmem
    have h1 := (mem_firstDedup _ a).1 hmem
    have h2 := (List.mem_filter.1 h1).2
    simp at h2

theorem mem_rrfPairs (results : List SearchResult)
    (p : (ItemType × String) × ℚ × SearchResult) (hp : p ∈ rrfPairs results) :
    p.2.2.key = p.1 ∧ p.2.2 ∈ results ∧
      ∃ i : Nat, p.2.1 = 1 / (60 + ((i : ℚ) + 1)) := by
  unfold rrfPairs at hp
  rcases List.mem_flatMap.1 hp with ⟨src, _, hmem⟩
  rcases List.mem_map.1 hmem with ⟨ir, hir, rfl⟩
  have hsnd : ir.2 ∈ stableSort scoreDescLe
      (results.filter (fun r => decide (r.source = src))) := by
    rw [← List.enum_map_snd (stableSort scoreDescLe
      (results.filter (fun r => decide (r.source = src))))]
    exact List.mem_map_of_mem Prod.snd hir
  have hres : ir.2 ∈ results :=
    (List.mem_filter.1 ((stableSort_perm scoreDescLe _).mem_iff.1 hsnd)).1
  exact ⟨rfl, hres, ir.1, rfl⟩

theorem rrfPairs_keys_iff (results : List SearchResult) (k : ItemType × String) :
    k ∈ (rrfPairs results).map (fun p => p.1) ↔
      k ∈ results.map SearchResult.key := by
  constructor
  · intro h
    rcases List.mem_map.1 h with ⟨p, hp, rfl⟩
    rcases mem_rrfPairs results p hp with ⟨hkey, hres, _⟩
    exact hkey ▸ List.mem_map_of_mem _ hres
  · intro h
    rcases List.mem_map.1 h with ⟨r, hr, rfl⟩
    have hsrc : r.source ∈ firstDedup (results.map SearchResult.source) :=
      (mem_firstDedup _ _).2 (List.mem_map_of_mem _ hr)
    have hfil : r ∈ results.filter (fun x => decide (x.source = r.source)) :=
      List.mem_filter.2 ⟨hr, by simp⟩
    have hsort : r ∈ stableSort scoreDescLe
        (results.filter (fun x => decide (x.source = r.source))) :=
      (stableSort_perm scoreDescLe _).mem_iff.2 hfil
    rw [← List.enum_map_snd (stableSort scoreDescLe
      (results.filter (fun x => decide (x.source = r.source))))] at hsort
    rcases List.mem_map.1 hsort with ⟨ir, hir, hsnd⟩
    refine List.mem_map.2 ⟨(ir.2.key, 1 / (60 + ((ir.1 : ℚ) + 1)), ir.2),
      ?_, by rw [hsnd]⟩
    unfold rrfPairs
    refine List.mem_flatMap.2 ⟨r.source, hsrc, ?_⟩
    exact List.mem_map.2 ⟨ir, hir, rfl⟩

theorem fuseResultsFull_keys (results : List SearchResult) :
    (fuseResultsFull results).map SearchResult.key =
      ((stableSort (fun a b => decide (b.score ≤ a.score))
        ((rrfPairs results).foldl insertPair [])).map FuseEntry.key) := by
  unfold fuseResultsFull
  rw [List.map_map]
  refine List.map_congr_left ?_
  intro e he
  have hmem : e ∈ (rrfPairs results).foldl insertPair [] :=
    (stableSort_perm _ _).mem_iff.1 he
  have hitem : e.item.key = e.key :=
    foldl_insertPair_item (rrfPairs results) [] (by simp)
      (fun p hp => (mem_rrfPairs results p hp).1) e hmem
  calc (SearchResult.key ∘ fun e => { e.item with score := e.score }) e
      = e.item.key := rfl
    _ = e.key := hitem

/-- C5: `_fuse_results` groups candidates by source, ranks each source's
list by its own score descending, accumulates `1/(60 + rank)` per 1-based
rank into a running score keyed by `(item_type, item_id)` (this is `rrfSum`),
emits exactly one entry per key with the summed score replacing the original
one, sorts descending by fused score, and truncates to `limit`. -/
theorem claim_C5_fusion (results : List SearchResult) (limit : Nat) :
    ((fuseResultsFull results).map SearchResult.key).Nodup ∧
    (∀ r ∈ fuseResultsFull results, r.score = rrfSum results r.key) ∧
    (fuseResultsFull results).Pairwise (fun a b => b.score ≤ a.score) ∧
    (∀ k, k ∈ (fuseResultsFull results).map SearchResult.key ↔
      k ∈ results.map SearchResult.key) ∧
    fuseResults results limit = (fuseResultsFull results).take limit := by
  have hndk : (((rrfPairs results).foldl insertPair []).map FuseEntry.key).Nodup :=
    foldl_insertPair_keys_nodup (rrfPairs results) [] (by simp)
  have hperm := stableSort_perm (fun a b : FuseEntry => decide (b.score ≤ a.score))
    ((rrfPairs results).foldl insertPair [])
  refine ⟨?_, ?_, ?_, ?_, rfl⟩
  · rw [fuseResultsFull_keys]
    exact ((hperm.map FuseEntry.key).nodup_iff).2 hndk
  · intro r hr
    unfold fuseResultsFull at hr
    rcases List.mem_map.1 hr with ⟨e, he, rfl⟩
    have hmem : e ∈ (rrfPairs results).foldl insertPair [] := hperm.mem_iff.1 he
    have hitem : e.item.key = e.key :=
      foldl_insertPair_item (rrfPairs results) [] (by simp)
        (fun p hp => (mem_rrfPairs results p hp).1) e hmem
    have hkey : SearchResult.key { e.item with score := e.score } = e.key := by
      calc SearchResult.key { e.item with score := e.score } = e.item.key := rfl
        _ = e.key := hitem
    have hscore : e.score = scoreAt ((rrfPairs results).foldl insertPair []) e.key :=
      score_eq_scoreAt _ hndk e hmem
    have hsum := foldl_insertPair_scoreAt (rrfPairs results) [] e.key (by simp)
    rw [hkey]
    show e.score = rrfSum results e.key
    rw [hscore, hsum]
    unfold rrfSum scoreAt
    simp
  · unfold fuseResultsFull
    rw [List.pairwise_map]
    have hsorted := stableSort_pairwise
      (fun a b : FuseEntry => decide (b.score ≤ a.score))
      (fun a b c hab hbc => by
        rw [decide_eq_true_eq] at hab hbc ⊢
        exact hbc.trans hab)
      (fun a b => by
        rcases le_total a.score b.score with h | h
        · exact Or.inr (by rw [decide_eq_true_eq]; exact h)
        · exact Or.inl (by rw [decide_eq_true_eq]; exact h))
      ((rrfPairs results).foldl insertPair [])
    refine hsorted.imp ?_
    intro a b hab
    rw [decide_eq_true_eq] at hab
    exact hab
  · intro k
    rw [fuseResultsFull_keys]
    rw [(hperm.map FuseEntry.key).mem_iff]
    rw [foldl_insertPair_mem_keys (rrfPairs results) [] k]
    simp only [List.map_nil, List.not_mem_nil, false_or]
    exact rrfPairs_keys_iff results k

/-- C5, witness: the same `(message, "m1")` key arriving from the semantic
and keyword sources fuses into the single entry with score
`1/61 + 1/61 = 2/61`. -/
theorem claim_C5_witness :
    ((⟨"m1", ItemType.message, "hello", 2 / 61, SearchSource.keyword⟩ : SearchResult) ∈
      fuseResultsFull
        [⟨"m1", ItemType.message, "hello", 9 / 10, SearchSource.semantic⟩,
         ⟨"m1", ItemType.message, "hello", 3 / 5, SearchSource.keyword⟩]) ∧
    (2 : ℚ) / 61 = rrfSum
        [⟨"m1", ItemType.message, "hello", 9 / 10, SearchSource.semantic⟩,
         ⟨"m1", ItemType.message, "hello", 3 / 5, SearchSource.keyword⟩]
        (ItemType.message, "m1") := by
  have hmem : (⟨"m1", ItemType.message, "hello", 2 / 61, SearchSource.keyword⟩ : SearchResult) ∈
      fuseResultsFull
        [⟨"m1", ItemType.message, "hello", 9 / 10, SearchSource.semantic⟩,
         ⟨"m1", ItemType.message, "hello", 3 / 5, SearchSource.keyword⟩] := by
    have hne1 : ¬(SearchSource.keyword = SearchSource.semantic) := by decide
    have hne2 : ¬(SearchSource.semantic = SearchSource.keyword) := by decide
    norm_num [fuseResultsFull, rrfPairs, firstDedup, stableSort, insertLe,
      insertPair, scoreDescLe, SearchResult.key, List.enum, List.enumFrom,
      List.filter_cons, List.filter_nil, List.foldl_cons, List.foldl_nil,
      List.flatMap_cons, List.flatMap_nil, List.any_cons, List.any_nil,
      List.map_cons, List.map_nil, hne1, hne2]
  refine ⟨hmem, ?_⟩
  exact (claim_C5_fusion
    [⟨"m1", ItemType.message, "hello", 9 / 10, SearchSource.semantic⟩,
     ⟨"m1", ItemType.message, "hello", 3 / 5, SearchSource.keyword⟩] 10).2.1
    _ hmem

theorem filterMap_key_mem {α β γ : Type} (f : α → Option β) (g1 : α → γ)
    (g2 : β → γ) (hf : ∀ a b, f a = some b → g2 b = g1 a) :
    ∀ (l : List α) (x : γ), x ∈ (l.filterMap f).map g2 → x ∈ l.map g1 := by
  intro l x hx
  rcases List.mem_map.1 hx with ⟨b, hb, rfl⟩
  rcases List.mem_filterMap.1 hb with ⟨a, ha, hab⟩
  rw [hf a b hab]
  exact List.mem_map_of_mem _ ha

theorem filterMap_key_nodup {α β γ : Type} (f : α → Option β) (g1 : α → γ)
    (g2 : β → γ) (hf : ∀ a b, f a = some b → g2 b = g1 a) :
    ∀ l : List α, (l.map g1).Nodup → ((l.filterMap f).map g2).Nodup := by
  intro l
  induction l with
  | nil => intro _; simp
  | cons a l ih =>
    intro hnd
    simp only [List.map_cons] at hnd
    rcases List.nodup_cons.1 hnd with ⟨ha, hnd2⟩
    rcases hfa : f a with _ | b
    · simpa [List.filterMap_cons, hfa] using ih hnd2
    · simp only [List.filterMap_cons, hfa, List.map_cons]
      refine List.nodup_cons.2 ⟨?_, ih hnd2⟩
      intro hmem
      refine ha ?_
      rw [← hf a b hfa]
      exact filterMap_key_mem f g1 g2 hf l (g2 b) hmem

theorem shortestPathLengths_fst_nodup (g : KGraph) (s : String) (cutoff : Nat) :
    ((shortestPathLengths g s cutoff).map Prod.fst).Nodup := by
  refine filterMap_key_nodup _ id Prod.fst ?_ (nodeIds g) (by simpa using List.nodup_dedup _)
  intro a b hab
  rcases h : udist g s a with _ | d
  · simp [h] at hab
  · simp only [h] at hab
    by_cases hd : d ≤ cutoff
    · simp only [if_pos hd, Option.some.injEq] at hab
      rw [← hab]
      rfl
    · simp [if_neg hd] at hab

theorem findRelatedEntities_ids_nodup (g : KGraph) (entityId : String)
    (entityType : Option String) (maxDistance : Nat) :
    ((findRelatedEntities g entityId entityType maxDistance).map
      RelatedEntity.id).Nodup := by
  unfold findRelatedEntities
  by_cases hg : entityId ∈ nodeIds g
  · rw [if_pos hg]
    have hbase : (((shortestPathLengths g entityId maxDistance).filterMap
        (fun td =>
          if td.1 = entityId then none
          else if typeFilterOk entityType (nodeDataOf g td.1).entity_type then
            some { id := td.1, name := (nodeDataOf g td.1).name,
                   entity_type := (nodeDataOf g td.1).entity_type,
                   distance := td.2,
                   confidence := (nodeDataOf g td.1).confidence }
          else none)).map RelatedEntity.id).Nodup := by
      refine filterMap_key_nodup _ Prod.fst RelatedEntity.id ?_ _
        (shortestPathLengths_fst_nodup g entityId maxDistance)
      intro a b hab
      by_cases h1 : a.1 = entityId
      · simp [h1] at hab
      · rw [if_neg h1] at hab
        by_cases h2 : typeFilterOk entityType (nodeDataOf g a.1).entity_type
        · rw [if_pos h2] at hab
          obtain rfl := Option.some.inj hab
          rfl
        · simp [if_neg h2] at hab
    exact ((stableSort_perm relatedLe _).map RelatedEntity.id).nodup_iff.2 hbase
  · rw [if_neg hg]
    simp

theorem countP_id_le_one :
    ∀ L : List SearchResult, (L.map SearchResult.item_id).Nodup →
      ∀ v : String, L.countP (fun r => decide (r.item_id = v)) ≤ 1 := by
  intro L
  induction L with
  | nil => intro _ v; simp
  | cons a L ih =>
    intro hnd v
    simp only [List.map_cons] at hnd
    rcases List.nodup_cons.1 hnd with ⟨ha, hnd2⟩
    rw [List.countP_cons]
    by_cases hv : a.item_id = v
    · have hz : L.countP (fun r => decide (r.item_id = v)) = 0 := by
        rw [List.countP_eq_zero]
        intro r hr
        simp only [decide_eq_true_eq]
        intro hc
        refine ha ?_
        rw [hv, ← hc]
        exact List.mem_map_of_mem _ hr
      simp [hz, hv]
    · have hd : (decide (a.item_id = v)) = false := by
        simpa using hv
      rw [hd]
      simpa using ih hnd2 v

theorem countP_key_le_one (L : List SearchResult) (k : ItemType × String)
    (hnd : (L.map SearchResult.item_id).Nodup) :
    L.countP (fun r => decide (r.key = k)) ≤ 1 := by
  refine le_trans (List.countP_mono_left ?_) (countP_id_le_one L hnd k.2)
  intro r _ hp
  rw [decide_eq_true_eq] at hp ⊢
  rw [← hp]
  rfl

theorem countP_flatMap {α β : Type} (l : List α) (f : α → List β) (p : β → Bool) :
    (l.flatMap f).countP p = (l.map (fun x => (f x).countP p)).sum := by
  induction l with
  | nil => simp
  | cons a l ih => simp [List.flatMap_cons, List.countP_append, ih]

theorem countP_enum_snd {α : Type} (L : List α) (q : α → Bool) :
    (L.enum).countP (fun ir => q ir.2) = L.countP q := by
  have h1 : (L.enum.map Prod.snd).countP q = (L.enum).countP (q ∘ Prod.snd) :=
    List.countP_map q Prod.snd L.enum
  rw [List.enum_map_snd] at h1
  rw [h1]
  rfl

theorem rrfSum_le_countP (results : List SearchResult) (k : ItemType × String) :
    rrfSum results k ≤
      ((rrfPairs results).countP (fun p => decide (p.1 = k)) : ℚ) * (1 / 61) := by
  unfold rrfSum
  have hb : ∀ x ∈ ((rrfPairs results).filter
      (fun p => decide (p.1 = k))).map (fun p => p.2.1), x ≤ 1 / 61 := by
    intro x hx
    rcases List.mem_map.1 hx with ⟨p, hp, rfl⟩
    have hpp : p ∈ rrfPairs results := List.mem_of_mem_filter hp
    rcases (mem_rrfPairs results p hpp).2.2 with ⟨i, hi⟩
    rw [hi]
    have hca : (0 : ℚ) ≤ (i : ℚ) := Nat.cast_nonneg i
    have h61 : (61 : ℚ) ≤ 60 + ((i : ℚ) + 1) := by linarith
    exact one_div_le_one_div_of_le (by norm_num) h61
  have hsum := List.sum_le_card_nsmul _ _ hb
  rw [List.length_map] at hsum
  have hlen : ((rrfPairs results).filter (fun p => decide (p.1 = k))).length =
      (rrfPairs results).countP (fun p => decide (p.1 = k)) := by
    rw [List.countP_eq_length_filter]
  rw [hlen] at hsum
  calc (((rrfPairs results).filter (fun p => decide (p.1 = k))).map
        (fun p => p.2.1)).sum
      ≤ (rrfPairs results).countP (fun p => decide (p.1 = k)) • ((1 : ℚ) / 61) :=
        hsum
    _ = ((rrfPairs results).countP (fun p => decide (p.1 = k)) : ℚ) * (1 / 61) :=
        nsmul_eq_mul _ _

theorem rrfPairs_countP_decomp (results : List SearchResult)
    (k : ItemType × String) :
    (rrfPairs results).countP (fun p => decide (p.1 = k)) =
      ((firstDedup (results.map SearchResult.source)).map
        (fun src => (results.filter (fun r => decide (r.source = src))).countP
          (fun r => decide (r.key = k)))).sum := by
  unfold rrfPairs
  rw [countP_flatMap]
  congr 1
  refine List.map_congr_left ?_
  intro src _
  rw [List.countP_map]
  have hcomp : ((fun p : (ItemType × String) × ℚ × SearchResult =>
      decide (p.1 = k)) ∘
      (fun ir : Nat × SearchResult =>
        (ir.2.key, (1 : ℚ) / (60 + ((ir.1 : ℚ) + 1)), ir.2))) =
      fun ir : Nat × SearchResult => decide (ir.2.key = k) := rfl
  rw [hcomp]
  calc (List.countP (fun ir : Nat × SearchResult => decide (ir.2.key = k))
        (stableSort scoreDescLe (results.filter
          (fun r => decide (r.source = src)))).enum)
      = (stableSort scoreDescLe (results.filter
          (fun r => decide (r.source = src)))).countP
          (fun r => decide (r.key = k)) :=
        countP_enum_snd
          (stableSort scoreDescLe (results.filter
            (fun r => decide (r.source = src))))
          (fun r => decide (r.key = k))
    _ = (results.filter (fun r => decide (r.source = src))).countP
          (fun r => decide (r.key = k)) :=
        (stableSort_perm scoreDescLe _).countP_eq _

theorem sum_nat_subperm_le (l1 l2 : List ℕ) (h : l1.Subperm l2) :
    l1.sum ≤ l2.sum := by
  rcases h with ⟨l, hperm, hsub⟩
  rw [← hperm.sum_eq]
  exact hsub.sum_le_sum (fun a _ => Nat.zero_le a)

theorem sources_sum_le (f : SearchSource → ℕ) (l : List SearchSource)
    (hnd : l.Nodup) :
    (l.map f).sum ≤
      f SearchSource.semantic + f SearchSource.keyword + f SearchSource.graph := by
  have hsub : l.Subperm
      [SearchSource.semantic, SearchSource.keyword, SearchSource.graph] :=
    List.subperm_of_subset hnd (fun x _ => by cases x <;> simp)
  rcases hsub with ⟨l0, hperm, hsl⟩
  have hsub2 := (hsl.map f).sum_le_sum (fun a _ => Nat.zero_le a)
  rw [(hperm.map f).sum_eq] at hsub2
  simpa [Nat.add_assoc] using hsub2

theorem graphSearch_src (b : SearchBackend) (filters : Filters) (limit : Nat) :
    ∀ r ∈ graphSearch b filters limit, r.source = SearchSource.graph := by
  intro r hr
  rcases List.mem_flatMap.1 hr with ⟨seed, _, hmem⟩
  by_cases hg : seed.id ∈ nodeIds b.kg
  · rw [if_pos hg] at hmem
    rcases List.mem_map.1 hmem with ⟨re, _, rfl⟩
    rfl
  · rw [if_neg hg] at hmem
    exact absurd hmem (List.not_mem_nil r)

theorem graphSearch_countP (b : SearchBackend) (filters : Filters) (limit : Nat)
    (k : ItemType × String) :
    (graphSearch b filters limit).countP (fun r => decide (r.key = k)) ≤ 5 := by
  unfold graphSearch
  rw [countP_flatMap]
  have hper : ∀ x ∈ (b.seedRows.take 5).map (fun seed =>
      (if seed.id ∈ nodeIds b.kg then
        ((findRelatedEntities b.kg seed.id filters.entity_type 2).take limit).map
          (fun re =>
            ({ item_id := re.id, item_type := ItemType.entity,
               content := re.name ++ " (" ++ re.entity_type ++ ")",
               score := 10 / (10 + 3 * (re.distance : ℚ)),
               source := SearchSource.graph } : SearchResult))
      else []).countP (fun r => decide (r.key = k))), x ≤ 1 := by
    intro x hx
    rcases List.mem_map.1 hx with ⟨seed, _, rfl⟩
    by_cases hg : seed.id ∈ nodeIds b.kg
    · rw [if_pos hg]
      refine countP_key_le_one _ k ?_
      rw [List.map_map]
      exact ((List.take_sublist limit _).map RelatedEntity.id).nodup
        (findRelatedEntities_ids_nodup b.kg seed.id filters.entity_type 2)
    · rw [if_neg hg]
      simp
  have hsum := List.sum_le_card_nsmul _ 1 hper
  rw [List.length_map] at hsum
  have hlen : (b.seedRows.take 5).length ≤ 5 := List.length_take_le 5 b.seedRows
  calc ((b.seedRows.take 5).map _).sum ≤ (b.seedRows.take 5).length • 1 := hsum
    _ = (b.seedRows.take 5).length := by simp
    _ ≤ 5 := hlen

theorem fuseResultsFull_score (results : List SearchResult) (r : SearchResult)
    (hr : r ∈ fuseResultsFull results) : r.score = rrfSum results r.key := by
  have hndk : (((rrfPairs results).foldl insertPair []).map FuseEntry.key).Nodup :=
    foldl_insertPair_keys_nodup (rrfPairs results) [] (by simp)
  have hperm := stableSort_perm (fun a b : FuseEntry => decide (b.score ≤ a.score))
    ((rrfPairs results).foldl insertPair [])
  unfold fuseResultsFull at hr
  rcases List.mem_map.1 hr with ⟨e, he, rfl⟩
  have hmem : e ∈ (rrfPairs results).foldl insertPair [] := hperm.mem_iff.1 he
  have hitem : e.item.key = e.key :=
    foldl_insertPair_item (rrfPairs results) [] (by simp)
      (fun p hp => (mem_rrfPairs results p hp).1) e hmem
  have hkey : SearchResult.key { e.item with score := e.score } = e.key := by
    calc SearchResult.key { e.item with score := e.score } = e.item.key := rfl
      _ = e.key := hitem
  have hscore : e.score = scoreAt ((rrfPairs results).foldl insertPair []) e.key :=
    score_eq_scoreAt _ hndk e hmem
  have hsum := foldl_insertPair_scoreAt (rrfPairs results) [] e.key (by simp)
  rw [hkey]
  show e.score = rrfSum results e.key
  rw [hscore, hsum]
  unfold rrfSum scoreAt
  simp

theorem semanticSearch_ok (b : SearchBackend) (filters : Filters) (limit : Nat)
    (minScore : ℚ) (semRes : List SearchResult)
    (hq : ∀ hits, b.qdrantResult = Except.ok hits → (hits.map QdrantHit.id).Nodup)
    (hsem : semanticSearch b filters limit minScore = Except.ok semRes) :
    (∀ r ∈ semRes, r.source = SearchSource.semantic) ∧
    (∀ k, semRes.countP (fun r => decide (r.key = k)) ≤ 1) := by
  unfold semanticSearch at hsem
  cases henc : b.encodeResult with
  | error msg => rw [henc] at hsem; cases hsem
  | ok emb =>
    rw [henc] at hsem
    cases hqd : b.qdrantResult with
    | error msg =>
      rw [hqd] at hsem
      obtain rfl := Except.ok.inj hsem
      constructor
      · intro r hr; exact absurd hr (List.not_mem_nil r)
      · intro k; simp
    | ok hits =>
      rw [hqd] at hsem
      obtain rfl := Except.ok.inj hsem
      constructor
      · intro r hr
        have hr2 := List.mem_of_mem_take hr
        rcases List.mem_map.1 hr2 with ⟨h, _, rfl⟩
        rfl
      · intro k
        refine countP_key_le_one _ k ?_
        have hnd := hq hits hqd
        have hfl : ((hits.filter (fun h =>
            match normStrOpt filters.conversation_id with
            | none => true
            | some cid => decide (h.conversation_id = some cid))).map
            QdrantHit.id).Nodup :=
          ((List.filter_sublist hits).map QdrantHit.id).nodup hnd
        have hmm : (((hits.filter (fun h =>
            match normStrOpt filters.conversation_id with
            | none => true
            | some cid => decide (h.conversation_id = some cid))).map
            (fun h =>
              { item_id := h.id, item_type := ItemType.message,
                content := h.content, score := h.score,
                source := SearchSource.semantic } : QdrantHit → SearchResult)).map
            SearchResult.item_id).Nodup := by
          rw [List.map_map]
          exact hfl
        exact ((List.take_sublist limit _).map SearchResult.item_id).nodup hmm

/-- C4, amended: in hybrid mode the search never returns a result list at
all, empty or not: after the semantic strategy it always calls
`_keyword_search`, which raises `NameError` (`Message` is imported only
under `TYPE_CHECKING` and never bound at runtime) — so every hybrid-mode
call fails, with the embedding error when `encode` raises first and with
the `NameError` otherwise.  In particular no `min_score` threshold — the
default 0.5 included — ever makes hybrid-mode search return the empty
list. -/
theorem claim_C4_amended (b : SearchBackend) (filters : Filters)
    (limit : Nat) (minScore : ℚ) :
    searchRun b "hybrid" filters limit minScore =
      Except.error (match b.encodeResult with
        | Except.error msg => msg
        | Except.ok _ => "NameError: name Message is not defined") ∧
    ∀ l, searchRun b "hybrid" filters limit minScore ≠ Except.ok l := by
  have h1 : searchRun b "hybrid" filters limit minScore =
      Except.error (match b.encodeResult with
        | Except.error msg => msg
        | Except.ok _ => "NameError: name Message is not defined") := by
    cases henc : b.encodeResult with
    | error msg =>
      exact searchRun_hybrid_error b filters limit minScore msg
        (by unfold semanticSearch; rw [henc])
    | ok emb =>
      cases hq : b.qdrantResult with
      | error m2 =>
        exact searchRun_hybrid_nameError b filters limit minScore []
          (by unfold semanticSearch; rw [henc, hq])
      | ok hits =>
        exact searchRun_hybrid_nameError b filters limit minScore _
          (by unfold semanticSearch; rw [henc, hq])
  refine ⟨h1, ?_⟩
  intro l hc
  rw [h1] at hc
  cases hc

/-- Graph for the C4 backend: three seed entities, each with an edge to the
same target entity `x`. -/
def c4kg : KGraph :=
  { nodes := [("s1", ⟨"s1", "seed", 1⟩), ("s2", ⟨"s2", "seed", 1⟩),
              ("s3", ⟨"s3", "seed", 1⟩), ("x", ⟨"x", "target", 1⟩)]
    edges := [⟨"s1", "x", "e1", ⟨"rel", 1⟩⟩, ⟨"s2", "x", "e2", ⟨"rel", 1⟩⟩,
              ⟨"s3", "x", "e3", ⟨"rel", 1⟩⟩] }

/-- A concrete backend whose embedding and vector calls succeed and whose
store holds three graph seeds related to the entity `x`; its entity row
would give the keyword strategy a hit, were that code path reachable. -/
def c4Backend : SearchBackend :=
  { encodeResult := Except.ok [], qdrantResult := Except.ok []
    msgRows := []
    entRows := [⟨"x", "x", "", "target", 1⟩]
    seedRows := [⟨"s1", "s1", "", "seed", 1⟩, ⟨"s2", "s2", "", "seed", 1⟩,
                 ⟨"s3", "s3", "", "seed", 1⟩]
    kg := c4kg, query := "x" }

/-- C4 amended, witness: at a concrete backend whose embedding and vector
calls succeed, a hybrid call with the default `min_score = 0.5` fails with
the keyword `NameError` and returns no list. -/
theorem claim_C4_amended_witness :
    searchRun c4Backend "hybrid" ⟨none, some "target"⟩ 10 ((1 : ℚ) / 2) =
      Except.error "NameError: name Message is not defined" ∧
    searchRun c4Backend "hybrid" ⟨none, some "target"⟩ 10 ((1 : ℚ) / 2) ≠
      Except.ok [] :=
  ⟨(claim_C4_amended c4Backend ⟨none, some "target"⟩ 10 (1 / 2)).1,
   (claim_C4_amended c4Backend ⟨none, some "target"⟩ 10 (1 / 2)).2 []⟩

/-- C4, counterexample: with `min_score = 1/2 ≥ 3/61` (the default), a
concrete hybrid query does not return the empty list — it does not return a
result list at all: after the semantic strategy, `search` calls
`_keyword_search`, which raises `NameError` (`Message` is imported only
under `TYPE_CHECKING`), so the call fails before any fusion or score bound
can apply. -/
theorem claim_C4_counterexample :
    (3 : ℚ) / 61 ≤ 1 / 2 ∧
    searchRun c4Backend "hybrid" ⟨none, some "target"⟩ 10 ((1 : ℚ) / 2) ≠
      Except.ok [] ∧
    searchRun c4Backend "hybrid" ⟨none, some "target"⟩ 10 ((1 : ℚ) / 2) =
      Except.error "NameError: name Message is not defined" := by
  refine ⟨by norm_num, by decide, by decide⟩

/-- A candidate entity produced by extraction (`entity_extractor.py` builds
dicts with `name`, `entity_type`, `confidence`, among other keys the
deduplication never reads). -/
structure ExtractedEntity where
  name : String
  entity_type : String
  confidence : ℚ
deriving DecidableEq, Repr

/-- The dedup key `(entity["name"].lower(), entity["entity_type"])`. -/
def entityKey (e : ExtractedEntity) : List Char × String :=
  (lowerChars e.name, e.entity_type)

/-- One step of `deduplicate_entities`' loop: `seen[key] = entity` either
replaces in place (when the key exists and the new confidence is strictly
greater) or appends a fresh dict slot. -/
def dedupStep (seen : List ((List Char × String) × ExtractedEntity))
    (e : ExtractedEntity) : List ((List Char × String) × ExtractedEntity) :=
  if seen.any (fun p => decide (p.1 = entityKey e)) then
    seen.map (fun p =>
      if p.1 = entityKey e then
        (if p.2.confidence < e.confidence then (p.1, e) else p)
      else p)
  else seen ++ [(entityKey e, e)]

/-- `deduplicate_entities(entities)`: fold the dict, return
`list(seen.values())` in key-insertion order. -/
def deduplicateEntities (entities : List ExtractedEntity) :
    List ExtractedEntity :=
  (entities.foldl dedupStep []).map Prod.snd

/-- The specification picker: the earliest-occurring entity among those of
maximal confidence (a later one wins only when strictly greater). -/
def firstMax : List ExtractedEntity → Option ExtractedEntity :=
  fun l => l.foldl (fun acc e =>
    match acc with
    | none => some e
    | some a => if a.confidence < e.confidence then some e else some a) none

theorem any_fst_iff {α β : Type} [DecidableEq α] (l : List (α × β)) (k : α) :
    (l.any (fun p => decide (p.1 = k)) = true) ↔ k ∈ l.map Prod.fst := by
  rw [List.any_eq_true]
  constructor
  · rintro ⟨p, hp, hk⟩
    rw [decide_eq_true_eq] at hk
    exact List.mem_map.2 ⟨p, hp, hk⟩
  · intro h
    rcases List.mem_map.1 h with ⟨p, hp, hk⟩
    exact ⟨p, hp, by rw [decide_eq_true_eq]; exact hk⟩

theorem filter_fst_singleton {α β : Type} [DecidableEq α] :
    ∀ l : List (α × β), (l.map Prod.fst).Nodup →
      ∀ p ∈ l, l.filter (fun q => decide (q.1 = p.1)) = [p] := by
  intro l
  induction l with
  | nil => intro _ p hp; exact absurd hp (List.not_mem_nil p)
  | cons a l ih =>
    intro hnd p hp
    simp only [List.map_cons] at hnd
    rcases List.nodup_cons.1 hnd with ⟨hka, hnd2⟩
    rcases List.mem_cons.1 hp with rfl | hp
    · have hnone : l.filter (fun q => decide (q.1 = p.1)) = [] := by
        rw [List.filter_eq_nil_iff]
        intro q hq
        simp only [decide_eq_true_eq]
        intro hc
        exact hka (hc ▸ List.mem_map_of_mem _ hq)
      simp [List.filter_cons, hnone]
    · have hne : ¬a.1 = p.1 := by
        intro hc
        exact hka (hc ▸ List.mem_map_of_mem _ hp)
      simp only [List.filter_cons, decide_eq_true_eq, if_neg hne]
      exact ih hnd2 p hp

theorem filter_map_fst_pres {α β : Type} [DecidableEq α]
    (f : (α × β) → (α × β)) (hf : ∀ p, (f p).1 = p.1)
    (l : List (α × β)) (k : α) :
    (l.map f).filter (fun q => decide (q.1 = k)) =
      (l.filter (fun q => decide (q.1 = k))).map f := by
  rw [List.filter_map]
  congr 1
  apply List.filter_congr
  intro p _
  simp [Function.comp, hf p]

theorem firstMax_append (l : List ExtractedEntity) (e : ExtractedEntity) :
    firstMax (l ++ [e]) =
      match firstMax l with
      | none => some e
      | some a => if a.confidence < e.confidence then some e else some a := by
  unfold firstMax
  rw [List.foldl_append]
  rfl

theorem dedupStep_fst (seen : List ((List Char × String) × ExtractedEntity))
    (e : ExtractedEntity) (p : (List Char × String) × ExtractedEntity) :
    ((if p.1 = entityKey e then
        (if p.2.confidence < e.confidence then (p.1, e) else p)
      else p)).1 = p.1 := by
  by_cases h1 : p.1 = entityKey e
  · rw [if_pos h1]
    by_cases h2 : p.2.confidence < e.confidence
    · rw [if_pos h2]
    · rw [if_neg h2]
  · rw [if_neg h1]

theorem dedupStep_keys (seen : List ((List Char × String) × ExtractedEntity))
    (e : ExtractedEntity) :
    (dedupStep seen e).map Prod.fst =
      if entityKey e ∈ seen.map Prod.fst then seen.map Prod.fst
      else seen.map Prod.fst ++ [entityKey e] := by
  unfold dedupStep
  by_cases h : entityKey e ∈ seen.map Prod.fst
  · rw [if_pos ((any_fst_iff seen (entityKey e)).2 h), if_pos h, List.map_map]
    refine List.map_congr_left ?_
    intro p _
    exact dedupStep_fst seen e p
  · rw [if_neg (fun hc => h ((any_fst_iff seen (entityKey e)).1 hc)), if_neg h]
    simp

theorem dedupStep_inv (seen : List ((List Char × String) × ExtractedEntity))
    (e : ExtractedEntity) (h : ∀ p ∈ seen, p.1 = entityKey p.2) :
    ∀ p ∈ dedupStep seen e, p.1 = entityKey p.2 := by
  intro p hp
  unfold dedupStep at hp
  by_cases hany : seen.any (fun q => decide (q.1 = entityKey e)) = true
  · rw [if_pos hany] at hp
    rcases List.mem_map.1 hp with ⟨p0, hp0, rfl⟩
    by_cases h1 : p0.1 = entityKey e
    · rw [if_pos h1]
      by_cases h2 : p0.2.confidence < e.confidence
      · rw [if_pos h2]
        exact h1
      · rw [if_neg h2]
        exact h p0 hp0
    · rw [if_neg h1]
      exact h p0 hp0
  · rw [if_neg hany] at hp
    rcases List.mem_append.1 hp with hp | hp
    · exact h p hp
    · rcases List.mem_singleton.1 hp with rfl
      rfl

theorem dedupStep_filter_present (seen : List ((List Char × String) × ExtractedEntity))
    (e : ExtractedEntity) (p0 : (List Char × String) × ExtractedEntity)
    (hnd : (seen.map Prod.fst).Nodup) (hp0 : p0 ∈ seen)
    (hk : p0.1 = entityKey e) :
    (dedupStep seen e).filter (fun q => decide (q.1 = entityKey e)) =
      [if p0.2.confidence < e.confidence then (p0.1, e) else p0] := by
  unfold dedupStep
  have hany : seen.any (fun q => decide (q.1 = entityKey e)) = true :=
    (any_fst_iff _ _).2 (hk ▸ List.mem_map_of_mem _ hp0)
  rw [if_pos hany]
  rw [filter_map_fst_pres _ (fun p => dedupStep_fst seen e p) _ _]
  have hfil := filter_fst_singleton seen hnd p0 hp0
  rw [hk] at hfil
  rw [hfil]
  simp only [List.map_cons, List.map_nil]
  rw [if_pos hk]

theorem dedupStep_filter_absent (seen : List ((List Char × String) × ExtractedEntity))
    (e : ExtractedEntity) (hmem : entityKey e ∉ seen.map Prod.fst) :
    (dedupStep seen e).filter (fun q => decide (q.1 = entityKey e)) =
      [(entityKey e, e)] := by
  unfold dedupStep
  rw [if_neg (fun hc => hmem ((any_fst_iff _ _).1 hc))]
  rw [List.filter_append]
  have h1 : seen.filter (fun q => decide (q.1 = entityKey e)) = [] := by
    rw [List.filter_eq_nil_iff]
    intro q hq
    simp only [decide_eq_true_eq]
    exact fun hc => hmem (hc ▸ List.mem_map_of_mem _ hq)
  rw [h1]
  simp [List.filter_cons]

theorem dedupStep_filter_ne (seen : List ((List Char × String) × ExtractedEntity))
    (e : ExtractedEntity) (k : List Char × String) (hk : ¬entityKey e = k) :
    (dedupStep seen e).filter (fun q => decide (q.1 = k)) =
      seen.filter (fun q => decide (q.1 = k)) := by
  unfold dedupStep
  by_cases hany : seen.any (fun q => decide (q.1 = entityKey e)) = true
  · rw [if_pos hany]
    rw [filter_map_fst_pres _ (fun p => dedupStep_fst seen e p) _ _]
    have hid : ∀ p ∈ seen.filter (fun q => decide (q.1 = k)),
        (fun p => if p.1 = entityKey e then
          (if p.2.confidence < e.confidence then (p.1, e) else p) else p) p =
          id p := by
      intro p hpf
      have hpk : p.1 = k := by
        have := (List.mem_filter.1 hpf).2
        rwa [decide_eq_true_eq] at this
      have hne : ¬p.1 = entityKey e := by
        intro hc
        exact hk (by rw [← hc]; exact hpk)
      simp only [if_neg hne]
      rfl
    rw [List.map_congr_left hid, List.map_id]
  · rw [if_neg hany, List.filter_append]
    have h1 : [(entityKey e, e)].filter (fun q => decide (q.1 = k)) = [] := by
      simp [List.filter_cons, hk]
    rw [h1, List.append_nil]

theorem dedup_fold_invariant :
    ∀ entities : List ExtractedEntity,
      (∀ p ∈ entities.foldl dedupStep [], p.1 = entityKey p.2) ∧
      ((entities.foldl dedupStep []).map Prod.fst).Nodup ∧
      (∀ k, ((entities.foldl dedupStep []).filter
          (fun p => decide (p.1 = k))).map Prod.snd =
        (firstMax (entities.filter (fun e => decide (entityKey e = k)))).toList) := by
  intro entities
  induction entities using List.reverseRecOn with
  | nil => exact ⟨by simp, by simp, fun k => by simp [firstMax]⟩
  | append_singleton pref e ih =>
    rcases ih with ⟨ih1, ih2, ih3⟩
    simp only [List.foldl_append, List.foldl_cons, List.foldl_nil]
    refine ⟨dedupStep_inv _ e ih1, ?_, ?_⟩
    · rw [dedupStep_keys]
      by_cases h : entityKey e ∈ (pref.foldl dedupStep []).map Prod.fst
      · rwa [if_pos h]
      · rw [if_neg h]
        simp [List.nodup_append, ih2, h]
    · intro k
      rw [List.filter_append]
      by_cases hk : entityKey e = k
      · subst hk
        have hsing : [e].filter (fun x => decide (entityKey x = entityKey e)) = [e] := by
          simp [List.filter_cons]
        rw [hsing, firstMax_append]
        by_cases hmem : entityKey e ∈ (pref.foldl dedupStep []).map Prod.fst
        · rcases List.mem_map.1 hmem with ⟨p0, hp0, hp0k⟩
          have hfil : (pref.foldl dedupStep []).filter
              (fun q => decide (q.1 = entityKey e)) = [p0] := by
            have := filter_fst_singleton _ ih2 p0 hp0
            rwa [hp0k] at this
          have hih := ih3 (entityKey e)
          rw [hfil] at hih
          have hfm : firstMax (pref.filter
              (fun x => decide (entityKey x = entityKey e))) = some p0.2 := by
            cases hfm2 : firstMax (pref.filter
                (fun x => decide (entityKey x = entityKey e))) with
            | none => rw [hfm2] at hih; simp at hih
            | some a =>
              rw [hfm2] at hih
              simp only [List.map_cons, List.map_nil, Option.toList_some] at hih
              rw [List.cons.injEq] at hih
              rw [hih.1]
          have hmr : (match firstMax (pref.filter
                (fun x => decide (entityKey x = entityKey e))) with
              | none => some e
              | some a => if a.confidence < e.confidence then some e else some a) =
              if p0.2.confidence < e.confidence then some e else some p0.2 := by
            rw [hfm]
          rw [hmr, dedupStep_filter_present _ e p0 ih2 hp0 hp0k]
          by_cases hc : p0.2.confidence < e.confidence
          · simp only [if_pos hc]
            rfl
          · simp only [if_neg hc]
            rfl
        · have hfil : (pref.foldl dedupStep []).filter
              (fun q => decide (q.1 = entityKey e)) = [] := by
            rw [List.filter_eq_nil_iff]
            intro q hq
            simp only [decide_eq_true_eq]
            exact fun hc => hmem (hc ▸ List.mem_map_of_mem _ hq)
          have hih := ih3 (entityKey e)
          rw [hfil] at hih
          have hfm : firstMax (pref.filter
              (fun x => decide (entityKey x = entityKey e))) = none := by
            cases hfm2 : firstMax (pref.filter
                (fun x => decide (entityKey x = entityKey e))) with
            | none => rfl
            | some a => rw [hfm2] at hih; simp at hih
          have hmr : (match firstMax (pref.filter
                (fun x => decide (entityKey x = entityKey e))) with
              | none => some e
              | some a => if a.confidence < e.confidence then some e else some a) =
              some e := by
            rw [hfm]
          rw [hmr, dedupStep_filter_absent _ e hmem]
          rfl
      · have hnil : [e].filter (fun x => decide (entityKey x = k)) = [] := by
          simp [List.filter_cons, hk]
        rw [hnil, List.append_nil, dedupStep_filter_ne _ e k hk]
        exact ih3 k

def fmStep (acc : Option ExtractedEntity) (e : ExtractedEntity) :
    Option ExtractedEntity :=
  match acc with
  | none => some e
  | some a => if a.confidence < e.confidence then some e else some a

theorem firstMax_eq_foldl (l : List ExtractedEntity) :
    firstMax l = l.foldl fmStep none := rfl

theorem fmStep_some (a e : ExtractedEntity) :
    fmStep (some a) e =
      if a.confidence < e.confidence then some e else some a := rfl

theorem foldl_fmStep_some (l : List ExtractedEntity) :
    ∀ a, ∃ b, l.foldl fmStep (some a) = some b := by
  induction l with
  | nil => exact fun a => ⟨a, rfl⟩
  | cons x l ih =>
    intro a
    rw [List.foldl_cons, fmStep_some]
    by_cases h : a.confidence < x.confidence
    · rw [if_pos h]
      exact ih x
    · rw [if_neg h]
      exact ih a

theorem firstMax_eq_none_iff (l : List ExtractedEntity) :
    firstMax l = none ↔ l = [] := by
  constructor
  · intro h
    cases l with
    | nil => rfl
    | cons x l =>
      rw [firstMax_eq_foldl, List.foldl_cons] at h
      have hx : fmStep none x = some x := rfl
      rw [hx] at h
      rcases foldl_fmStep_some l x with ⟨b, hb⟩
      rw [hb] at h
      exact absurd h (by simp)
  · rintro rfl
    rfl

theorem firstMax_spec :
    ∀ (l : List ExtractedEntity) (m : ExtractedEntity), firstMax l = some m →
      ∃ pre suf, l = pre ++ m :: suf ∧
        (∀ x ∈ pre, x.confidence < m.confidence) ∧
        (∀ x ∈ suf, x.confidence ≤ m.confidence) := by
  intro l
  induction l using List.reverseRecOn with
  | nil =>
    intro m h
    exact absurd h (by simp [firstMax])
  | append_singleton l2 e ih =>
    intro m h
    rw [firstMax_append] at h
    cases hfm : firstMax l2 with
    | none =>
      rw [hfm] at h
      have hl2 : l2 = [] := (firstMax_eq_none_iff l2).1 hfm
      subst hl2
      have h2 : some e = some m := h
      obtain rfl : e = m := Option.some.inj h2
      exact ⟨[], [], rfl, by simp, by simp⟩
    | some a =>
      rw [hfm] at h
      have h2 : (if a.confidence < e.confidence then some e else some a) =
          some m := h
      rcases ih a hfm with ⟨pre, suf, hdec, hpre, hsuf⟩
      by_cases hc : a.confidence < e.confidence
      · rw [if_pos hc] at h2
        obtain rfl : e = m := Option.some.inj h2
        refine ⟨l2, [], by simp, ?_, by simp⟩
        intro x hx
        have hxa : x.confidence ≤ a.confidence := by
          rw [hdec] at hx
          rcases List.mem_append.1 hx with hx | hx
          · exact le_of_lt (hpre x hx)
          · rcases List.mem_cons.1 hx with rfl | hx
            · exact le_refl _
            · exact hsuf x hx
        exact lt_of_le_of_lt hxa hc
      · rw [if_neg hc] at h2
        obtain rfl : a = m := Option.some.inj h2
        refine ⟨pre, suf ++ [e], by rw [hdec]; simp, hpre, ?_⟩
        intro x hx
        rcases List.mem_append.1 hx with hx | hx
        · exact hsuf x hx
        · rcases List.mem_singleton.1 hx with rfl
          exact le_of_not_lt hc

theorem deduplicateEntities_filter (entities : List ExtractedEntity)
    (k : List Char × String) :
    (deduplicateEntities entities).filter (fun e => decide (entityKey e = k)) =
      (firstMax (entities.filter (fun e => decide (entityKey e = k)))).toList := by
  rcases dedup_fold_invariant entities with ⟨h1, _, h3⟩
  unfold deduplicateEntities
  rw [List.filter_map]
  have hcongr : (entities.foldl dedupStep []).filter
      ((fun e => decide (entityKey e = k)) ∘ Prod.snd) =
      (entities.foldl dedupStep []).filter (fun p => decide (p.1 = k)) := by
    apply List.filter_congr
    intro p hp
    simp only [Function.comp]
    rw [← h1 p hp]
  rw [hcongr]
  exact h3 k

/-- **C10.** `deduplicate_entities` returns exactly one entity per
`(lowercased name, entity_type)` key: its entries holding a key `k` are
exactly the one-element list produced by the earliest-max picker `firstMax`
on the input entities holding `k` (empty iff no input holds `k`); and
`firstMax` indeed returns the earliest occurrence among those of maximal
confidence: every earlier entity has strictly smaller confidence and every
later one is less-or-equal, so on a tie the first occurrence wins. -/
theorem claim_C10_dedup (entities : List ExtractedEntity)
    (k : List Char × String) :
    ((deduplicateEntities entities).filter
        (fun e => decide (entityKey e = k)) =
      (firstMax (entities.filter
        (fun e => decide (entityKey e = k)))).toList) ∧
    (firstMax (entities.filter (fun e => decide (entityKey e = k))) = none ↔
      entities.filter (fun e => decide (entityKey e = k)) = []) ∧
    (∀ m, firstMax (entities.filter (fun e => decide (entityKey e = k))) =
        some m →
      ∃ pre suf,
        entities.filter (fun e => decide (entityKey e = k)) =
          pre ++ m :: suf ∧
        (∀ x ∈ pre, x.confidence < m.confidence) ∧
        (∀ x ∈ suf, x.confidence ≤ m.confidence)) := by
  refine ⟨deduplicateEntities_filter entities k, firstMax_eq_none_iff _, ?_⟩
  intro m h
  exact firstMax_spec _ m h

/-- Witness for C10 at a concrete input: three case-variant `alice` entities,
where the second (confidence 2) beats the first (confidence 1) and survives
the tied third, so the kept entity is the earliest maximal one. -/
theorem claim_C10_witness :
    (deduplicateEntities
        [⟨"Alice", "person", (1 : ℚ)⟩, ⟨"ALICE", "person", 2⟩,
          ⟨"alice", "person", 2⟩]).filter
        (fun e => decide (entityKey e = ("alice".toList, "person"))) =
      [⟨"ALICE", "person", 2⟩] ∧
    ∃ pre suf,
      ([⟨"Alice", "person", (1 : ℚ)⟩, ⟨"ALICE", "person", 2⟩,
          ⟨"alice", "person", 2⟩] : List ExtractedEntity).filter
          (fun e => decide (entityKey e = ("alice".toList, "person"))) =
        pre ++ (⟨"ALICE", "person", 2⟩ : ExtractedEntity) :: suf ∧
      (∀ x ∈ pre,
        x.confidence < (⟨"ALICE", "person", 2⟩ : ExtractedEntity).confidence) ∧
      (∀ x ∈ suf,
        x.confidence ≤ (⟨"ALICE", "person", 2⟩ : ExtractedEntity).confidence) := by
  have h := claim_C10_dedup
    [⟨"Alice", "person", 1⟩, ⟨"ALICE", "person", 2⟩, ⟨"alice", "person", 2⟩]
    ("alice".toList, "person")
  refine ⟨?_, h.2.2 ⟨"ALICE", "person", 2⟩ (by decide)⟩
  rw [h.1]
  decide
